import Mathlib

/-!
Verification of the `remap` bulk string-replacement tool.

The Go sources are shallowly embedded: Go strings (byte slices) become
`List Nat` (one `Nat` per byte), integer arithmetic on indices becomes
`Nat` arithmetic, and each Go function is translated into a Lean
function of the same name and structure.  File-system effects are made
explicit where a claim needs them (an association list of paths to
contents).  Case folding: the scheduler's write path folds with its own
byte-wise ASCII `toLower` (`internal/concurrent/processor.go`), which
this file embeds exactly; the engine folds with the Unicode-aware
`strings.ToLower`, which agrees with the ASCII fold byte-for-byte on
ASCII data but not beyond (it can rewrite multi-byte sequences and
change byte lengths).  The embedding therefore models the engine's
case-insensitive paths with the ASCII fold, and every theorem for
which that distinction is load-bearing carries explicit `isASCII`
hypotheses restricting it to the contents and patterns on which the
model is exact.  Similarly, `bufio.Scanner` refuses tokens longer than
64 KiB; the model's `scanLines` scans every line, and the theorem for
which the limit is load-bearing carries an explicit per-line length
bound.
-/

set_option maxRecDepth 8000

namespace Remap

/-- Go strings are byte slices; we model them as lists of byte values. -/
abbrev Str := List Nat

/-- The newline byte. -/
def nl : Nat := 10

/-- The carriage-return byte. -/
def cr : Nat := 13

/-- ASCII lower-casing of one byte, as `toLower` in
`internal/concurrent/processor.go` does it: bytes `'A'..'Z'` (65..90)
get 32 added, every other byte is kept. -/
def lowerByte (b : Nat) : Nat := if 65 ≤ b ∧ b ≤ 90 then b + 32 else b

/-- `toLower` (processor.go): byte-wise ASCII lower-casing.  This is
exact for the write path.  Where it stands in for the engine's
`strings.ToLower` — which is Unicode-aware, can rewrite invalid UTF-8
and change byte length — it is exact only on ASCII bytes, and the
theorems for which that matters (C1's case-insensitive conjunct)
carry `isASCII` hypotheses. -/
def toLower (s : Str) : Str := s.map lowerByte

/-- Every byte is ASCII: on such strings the Unicode `strings.ToLower`
used by the engine and the ASCII `toLower` of the write path coincide
byte-for-byte, so the single `toLower` of this embedding is exact for
both. -/
def isASCII (s : Str) : Prop := ∀ b ∈ s, b ≤ 127

instance (s : Str) : Decidable (isASCII s) := by
  unfold isASCII; infer_instance

/-- `content[i : i+len(pat)] == pat`: the pattern occurs at byte offset
`i` (the equality already forces `i + pat.length ≤ s.length`). -/
def occursAt (s pat : Str) (i : Nat) : Prop := (s.drop i).take pat.length = pat

instance (s pat : Str) (i : Nat) : Decidable (occursAt s pat i) := by
  unfold occursAt; infer_instance

/-- The pattern occurs somewhere in `s`. -/
def occursIn (s pat : Str) : Prop := ∃ i, occursAt s pat i

/-- `findStringFrom` (processor.go): first index `i ≥ start` with
`content[i : i+len(search)] == search`, scanning
`for i := start; i <= len(content)-len(search); i++`.  `strings.Index`
on a suffix has the same first-occurrence semantics, so this one
function also models the library searches in the engine. -/
def findFrom (content search : Str) (start : Nat) : Option Nat :=
  if start + search.length ≤ content.length then
    if occursAt content search start then some start
    else findFrom content search (start + 1)
  else none
termination_by content.length + 1 - start
decreasing_by omega

/-- `findString` (processor.go) / `strings.Index`: search from 0. -/
def findString (content search : Str) : Option Nat := findFrom content search 0

/-- `caseInsensitiveFindStringFrom` (processor.go): lower both haystack
and needle, then scan exactly like `findStringFrom`. -/
def caseInsensitiveFindStringFrom (content search : Str) (start : Nat) : Option Nat :=
  findFrom (toLower content) (toLower search) start

/-- The loop of `replaceAll` (processor.go): starting at byte cursor
`start`, find the next match, emit the bytes before it and the
replacement, and resume just past the matched region.  The bound check
in the `some` branch always holds when a match is found (it is recorded
here only so that the recursion visibly terminates); the `from = ""`
case never reaches it because `replaceAll` returns early on it. -/
def replaceAllLoop (s old new : Str) (start : Nat) : Str :=
  match findFrom s old start with
  | none => s.drop start
  | some i =>
    if _h : start < i + old.length ∧ i + old.length ≤ s.length then
      (s.take i).drop start ++ new ++ replaceAllLoop s old new (i + old.length)
    else s.drop start
termination_by s.length + 1 - start
decreasing_by omega

/-- `replaceAll` (processor.go): literal replace-all used by the
scheduler's on-disk write path.  Empty `from` returns the content
unchanged. -/
def replaceAll (content old new : Str) : Str :=
  if old = [] then content else replaceAllLoop content old new 0

/-- `strings.ReplaceAll(s, old, new)` of the Go standard library,
modeled on byte strings: with empty `old` it inserts `new` at the
start and after every byte; otherwise it replaces the non-overlapping
matches left to right, which is the same scan as `replaceAllLoop`. -/
def stringsReplaceAll (s old new : Str) : Str :=
  if old = [] then new ++ s.flatMap (fun c => c :: new)
  else replaceAllLoop s old new 0

/-- The loop of `caseInsensitiveReplace` (engine, replacement package):
search the lowered content for the lowered pattern from the cursor,
emit the bytes of the original content before the match and the
replacement, resume past the matched region. -/
def ciReplaceLoop (content lowerContent lowerFrom toStr : Str) (fromLen : Nat) (start : Nat) : Str :=
  match findFrom lowerContent lowerFrom start with
  | none => content.drop start
  | some i =>
    if _h : start < i + fromLen ∧ i + fromLen ≤ lowerContent.length then
      (content.take i).drop start ++ toStr ++
        ciReplaceLoop content lowerContent lowerFrom toStr fromLen (i + fromLen)
    else content.drop start
termination_by lowerContent.length + 1 - start
decreasing_by omega

/-- `caseInsensitiveReplace` (engine): fold-aware replace-all.  It
lowers the content once, scans it for the lowered pattern, and splices
the replacement into the original bytes.  The Go function lowers with
the Unicode-aware `strings.ToLower`; this embedding lowers with the
ASCII fold, which coincides with it exactly on ASCII data — the C1
equivalence with the write path's own ASCII fold is therefore stated
only under `isASCII` hypotheses in case-insensitive mode. -/
def caseInsensitiveReplace (content fromStr toStr : Str) : Str :=
  if fromStr = [] then content
  else ciReplaceLoop content (toLower content) (toLower fromStr) toStr fromStr.length 0

/-- The loop of `caseInsensitiveReplaceAll` (processor.go): same
splicing, but the search re-lowers the content on every probe
(`caseInsensitiveFindStringFrom`) and the loop stops as soon as the
cursor reaches the end of the content. -/
def ciReplaceAllLoop (content old new : Str) (start : Nat) : Str :=
  if start < content.length then
    match caseInsensitiveFindStringFrom content old start with
    | none => content.drop start
    | some i =>
      if _h : start < i + old.length ∧ i + old.length ≤ content.length then
        (content.take i).drop start ++ new ++ ciReplaceAllLoop content old new (i + old.length)
      else content.drop start
  else []
termination_by content.length + 1 - start
decreasing_by omega

/-- `caseInsensitiveReplaceAll` (processor.go): case-insensitive
replace-all used by the scheduler's on-disk write path. -/
def caseInsensitiveReplaceAll (content old new : Str) : Str :=
  if old = [] then content else ciReplaceAllLoop content old new 0

/-! ### Rule table and Go's `sort.Slice`

`NewMappingTable` (internal/parser) sorts the copied rule list with
`sort.Slice(mt.sorted, func(i, j int) { return len(sorted[i].From) >
len(sorted[j].From) })`.  `sort.Slice` is Go's unstable pattern-defeating
quicksort (`pdqsort`, Go ≥ 1.19); the functions below transcribe the Go
runtime's implementation, index loop by index loop, on a list state
(`lswap` is the `data.Swap` of the reflect-based `lessSwap`).  Loops are
driven by explicit fuel counters sized to the bounds the Go loops
themselves guarantee. -/

/-- One replacement rule (internal/parser): `{From, To string}`. -/
structure Mapping where
  From : Str
  To : Str
deriving DecidableEq

instance : Inhabited Mapping := ⟨⟨[], []⟩⟩

/-- Read the element at index `i` of the slice being sorted. -/
def mget (l : List Mapping) (i : Nat) : Mapping := l.getD i default

/-- The closure passed to `sort.Slice` by `NewMappingTable`:
`less(i, j) = len(sorted[i].From) > len(sorted[j].From)`, read on the
current state of the slice. -/
def lessAt (l : List Mapping) (i j : Nat) : Prop :=
  (mget l j).From.length < (mget l i).From.length

instance (l : List Mapping) (i j : Nat) : Decidable (lessAt l i j) := by
  unfold lessAt; infer_instance

/-- `data.Swap(i, j)` on the list state. -/
def lswap (l : List Mapping) (i j : Nat) : List Mapping :=
  (l.set i (mget l j)).set j (mget l i)

/-- Inner loop of `insertionSortCmpFunc`:
`for j := i; j > a && data.Less(j, j-1); j-- { data.Swap(j, j-1) }`. -/
def insertionSortInner (a : Nat) : List Mapping → Nat → List Mapping
  | l, 0 => l
  | l, j + 1 =>
    if a < j + 1 ∧ lessAt l (j + 1) j then insertionSortInner a (lswap l (j + 1) j) j
    else l

/-- Outer loop of `insertionSortCmpFunc`: `for i := a+1; i < b; i++`,
with `k` the remaining iteration count `b - i`. -/
def insertionSortLoop (a : Nat) : List Mapping → Nat → Nat → List Mapping
  | l, _, 0 => l
  | l, i, k + 1 => insertionSortLoop a (insertionSortInner a l i) (i + 1) k

/-- `insertionSortCmpFunc(data, a, b)`. -/
def insertionSortGo (l : List Mapping) (a b : Nat) : List Mapping :=
  insertionSortLoop a l (a + 1) (b - (a + 1))

/-- `siftDownCmpFunc(data, lo, hi, first)`: the root sinks at least one
level per iteration, so `hi` iterations always suffice as fuel. -/
def siftDownLoop (first hi : Nat) : List Mapping → Nat → Nat → List Mapping
  | l, _, 0 => l
  | l, root, k + 1 =>
    let child := 2 * root + 1
    if hi ≤ child then l
    else
      let child := if child + 1 < hi ∧ lessAt l (first + child) (first + child + 1)
        then child + 1 else child
      if ¬ lessAt l (first + root) (first + child) then l
      else siftDownLoop first hi (lswap l (first + root) (first + child)) child k

/-- `siftDownCmpFunc`. -/
def siftDownGo (l : List Mapping) (lo hi first : Nat) : List Mapping :=
  siftDownLoop first hi l lo (hi + 1)

/-- First loop of `heapSortCmpFunc`: build the heap,
`for i := (hi-1)/2; i >= 0; i--` (`c` is the current `i`). -/
def heapSortBuild (first hi : Nat) : List Mapping → Nat → List Mapping
  | l, 0 => siftDownGo l 0 hi first
  | l, c + 1 => heapSortBuild first hi (siftDownGo l (c + 1) hi first) c

/-- Second loop of `heapSortCmpFunc`: pop the maximum,
`for i := hi - 1; i >= 0; i--` (`i` is the current index). -/
def heapSortPop (first : Nat) : List Mapping → Nat → List Mapping
  | l, 0 => siftDownGo (lswap l first first) 0 0 first
  | l, i + 1 => heapSortPop first (siftDownGo (lswap l first (first + i + 1)) 0 (i + 1) first) i

/-- `heapSortCmpFunc(data, a, b)`.  In Go both loops start from values
computed with `int` arithmetic; the pop loop does not run when
`hi = 0`, hence the guard. -/
def heapSortGo (l : List Mapping) (a b : Nat) : List Mapping :=
  let hi := b - a
  let l := heapSortBuild a hi l ((hi - 1) / 2)
  if hi = 0 then l else heapSortPop a l (hi - 1)

/-- `reverseRangeCmpFunc(data, a, b)`: `i, j := a, b-1`, swap and move
inward while `i < j`. -/
def reverseRangeLoop : List Mapping → Nat → Nat → Nat → List Mapping
  | l, _, _, 0 => l
  | l, i, j, k + 1 => if i < j then reverseRangeLoop (lswap l i j) (i + 1) (j - 1) k else l

/-- `reverseRangeCmpFunc`. -/
def reverseRangeGo (l : List Mapping) (a b : Nat) : List Mapping :=
  reverseRangeLoop l a (b - 1) (b - a)

/-- `order2CmpFunc(data, a, b, &swaps)`: order two indices, counting
swaps.  Returns `(a', b', swaps')`. -/
def order2 (l : List Mapping) (a b swaps : Nat) : Nat × Nat × Nat :=
  if lessAt l b a then (b, a, swaps + 1) else (a, b, swaps)

/-- `medianCmpFunc(data, a, b, c, &swaps)`: the median index of three. -/
def medianGo (l : List Mapping) (a b c swaps : Nat) : Nat × Nat :=
  match order2 l a b swaps with
  | (a1, b1, s1) =>
    match order2 l b1 c s1 with
    | (b2, _, s2) =>
      match order2 l a1 b2 s2 with
      | (_, b3, s3) => (b3, s3)

/-- `medianAdjacentCmpFunc(data, i, &swaps)`: median of `i-1, i, i+1`. -/
def medianAdjacentGo (l : List Mapping) (i swaps : Nat) : Nat × Nat :=
  medianGo l (i - 1) i (i + 1) swaps

/-- The hints returned by `choosePivotCmpFunc`. -/
inductive Hint where
  | increasing
  | decreasing
  | unknown
deriving DecidableEq

/-- Map the swap count of `choosePivotCmpFunc` to its hint:
`0 → increasing`, `maxSwaps = 12 → decreasing`, else `unknown`. -/
def hintOfSwaps (s : Nat) : Hint :=
  if s = 0 then .increasing else if s = 12 then .decreasing else .unknown

/-- `choosePivotCmpFunc(data, a, b)`: candidates at `a + l/4*k`; for
`l ≥ 8` the median of three (of medians of adjacent triples when
`l ≥ shortestNinther = 50`). -/
def choosePivotGo (l : List Mapping) (a b : Nat) : Nat × Hint :=
  let len := b - a
  let i := a + len / 4 * 1
  let j := a + len / 4 * 2
  let k := a + len / 4 * 3
  if 8 ≤ len then
    if 50 ≤ len then
      let p1 := medianAdjacentGo l i 0
      let p2 := medianAdjacentGo l j p1.2
      let p3 := medianAdjacentGo l k p2.2
      let pm := medianGo l p1.1 p2.1 p3.1 p3.2
      (pm.1, hintOfSwaps pm.2)
    else
      let pm := medianGo l i j k 0
      (pm.1, hintOfSwaps pm.2)
  else (j, hintOfSwaps 0)

/-- `for i < b && !data.Less(i, i-1) { i++ }` of
`partialInsertionSortCmpFunc`: advance past the sorted run. -/
def advanceSortedRun (l : List Mapping) (b : Nat) : Nat → Nat → Nat
  | i, 0 => i
  | i, k + 1 =>
    if i < b ∧ ¬ lessAt l i (i - 1) then advanceSortedRun l b (i + 1) k else i

/-- Left shift loop of `partialInsertionSortCmpFunc`:
`for j := i - 1; j >= 1; j-- { if !less(j, j-1) break; swap(j, j-1) }`. -/
def shiftLeftLoop : List Mapping → Nat → List Mapping
  | l, 0 => l
  | l, j + 1 =>
    if ¬ lessAt l (j + 1) j then l else shiftLeftLoop (lswap l (j + 1) j) j

/-- Right shift loop of `partialInsertionSortCmpFunc`:
`for j := i + 1; j < b; j++ { if !less(j, j-1) break; swap(j, j-1) }`. -/
def shiftRightLoop (b : Nat) : List Mapping → Nat → Nat → List Mapping
  | l, _, 0 => l
  | l, j, k + 1 =>
    if j < b ∧ lessAt l j (j - 1) then shiftRightLoop b (lswap l j (j - 1)) (j + 1) k else l

/-- The `maxSteps = 5` loop of `partialInsertionSortCmpFunc`; returns
the mutated slice and whether the range ended up sorted. -/
def partialInsertionSortSteps (a b : Nat) : List Mapping → Nat → Nat → List Mapping × Bool
  | l, _, 0 => (l, false)
  | l, i, step + 1 =>
    let i := advanceSortedRun l b i (b - i)
    if i = b then (l, true)
    else if b - a < 50 then (l, false)
    else
      let l := lswap l i (i - 1)
      let l := if 2 ≤ i - a then shiftLeftLoop l (i - 1) else l
      let l := if 2 ≤ b - i then shiftRightLoop b l (i + 1) (b - (i + 1)) else l
      partialInsertionSortSteps a b l i step

/-- `partialInsertionSortCmpFunc(data, a, b)`. -/
def partialInsertionSortGo (l : List Mapping) (a b : Nat) : List Mapping × Bool :=
  partialInsertionSortSteps a b l (a + 1) 5

/-- `for i <= j && data.Less(i, a) { i++ }` (partition left scan). -/
def scanRight (l : List Mapping) (a : Nat) : Nat → Nat → Nat → Nat
  | i, _, 0 => i
  | i, j, k + 1 => if i ≤ j ∧ lessAt l i a then scanRight l a (i + 1) j k else i

/-- `for i <= j && !data.Less(j, a) { j-- }` (partition right scan). -/
def scanLeft (l : List Mapping) (a : Nat) : Nat → Nat → Nat → Nat
  | _, j, 0 => j
  | i, j, k + 1 => if i ≤ j ∧ ¬ lessAt l j a then scanLeft l a i (j - 1) k else j

/-- The swap loop of `partitionCmpFunc`; returns the slice and the
final `j`. -/
def partitionLoop (a : Nat) : List Mapping → Nat → Nat → Nat → List Mapping × Nat
  | l, _, j, 0 => (l, j)
  | l, i, j, k + 1 =>
    let i := scanRight l a i j (j + 2 - i)
    let j := scanLeft l a i j (j + 2)
    if j < i then (l, j)
    else partitionLoop a (lswap l i j) (i + 1) (j - 1) k

/-- `partitionCmpFunc(data, a, b, pivot)`: Hoare-style partition around
the pivot moved to `a`; returns `(slice, newpivot, alreadyPartitioned)`. -/
def partitionGo (l : List Mapping) (a b pivot : Nat) : List Mapping × Nat × Bool :=
  let l := lswap l a pivot
  let i := scanRight l a (a + 1) (b - 1) (b + 2)
  let j := scanLeft l a i (b - 1) (b + 2)
  if j < i then (lswap l j a, j, true)
  else
    let l := lswap l i j
    let p := partitionLoop a l (i + 1) (j - 1) (b + 2)
    (lswap p.1 p.2 a, p.2, false)

/-- `for i <= j && !data.Less(a, i) { i++ }` (partitionEqual left scan). -/
def scanEqRight (l : List Mapping) (a : Nat) : Nat → Nat → Nat → Nat
  | i, _, 0 => i
  | i, j, k + 1 => if i ≤ j ∧ ¬ lessAt l a i then scanEqRight l a (i + 1) j k else i

/-- `for i <= j && data.Less(a, j) { j-- }` (partitionEqual right scan). -/
def scanEqLeft (l : List Mapping) (a : Nat) : Nat → Nat → Nat → Nat
  | _, j, 0 => j
  | i, j, k + 1 => if i ≤ j ∧ lessAt l a j then scanEqLeft l a i (j - 1) k else j

/-- The swap loop of `partitionEqualCmpFunc`; returns the slice and the
final `i`. -/
def partitionEqualLoop (a : Nat) : List Mapping → Nat → Nat → Nat → List Mapping × Nat
  | l, i, _, 0 => (l, i)
  | l, i, j, k + 1 =>
    let i := scanEqRight l a i j (j + 2 - i)
    let j := scanEqLeft l a i j (j + 2)
    if j < i then (l, i)
    else partitionEqualLoop a (lswap l i j) (i + 1) (j - 1) k

/-- `partitionEqualCmpFunc(data, a, b, pivot)`. -/
def partitionEqualGo (l : List Mapping) (a b pivot : Nat) : List Mapping × Nat :=
  partitionEqualLoop a (lswap l a pivot) (a + 1) (b - 1) (b + 2)

/-- One step of the `xorshift` generator used by `breakPatternsCmpFunc`
(`uint64` state: `r ^= r << 13; r ^= r >> 7; r ^= r << 17`). -/
def xorshiftNext (r : Nat) : Nat :=
  let r := (r ^^^ (r <<< 13)) % 2 ^ 64
  let r := (r ^^^ (r >>> 7)) % 2 ^ 64
  (r ^^^ (r <<< 17)) % 2 ^ 64

/-- `bits.Len(n)`: the number of bits of `n`, computed structurally
(the fuel argument only bounds the halving recursion). -/
def bitsLenAux : Nat → Nat → Nat
  | 0, _ => 0
  | fuel + 1, n => if n = 0 then 0 else bitsLenAux fuel (n / 2) + 1

/-- `bits.Len(n)`. -/
def bitsLen (n : Nat) : Nat := bitsLenAux n n

/-- `nextPowerOfTwo(length) = 1 << bits.Len(uint(length))`. -/
def nextPowerOfTwo (length : Nat) : Nat := 2 ^ bitsLen length

/-- One of the three scrambling swaps of `breakPatternsCmpFunc`. -/
def breakPatternsSwap (a length idx : Nat) (l : List Mapping) (r step : Nat) : List Mapping :=
  let modulus := nextPowerOfTwo length
  let other := r &&& (modulus - 1)
  let other := if length ≤ other then other - length else other
  lswap l (idx - 1 + step) (a + other)

/-- `breakPatternsCmpFunc(data, a, b)`: scramble three elements around
the middle using the xorshift stream seeded with the length. -/
def breakPatternsGo (l : List Mapping) (a b : Nat) : List Mapping :=
  let length := b - a
  if 8 ≤ length then
    let idx := a + (length / 4) * 2 - 1
    let r1 := xorshiftNext (length % 2 ^ 64)
    let r2 := xorshiftNext r1
    let r3 := xorshiftNext r2
    let l := breakPatternsSwap a length idx l r1 0
    let l := breakPatternsSwap a length idx l r2 1
    breakPatternsSwap a length idx l r3 2
  else l

/-- `pdqsortCmpFunc(data, a, b, limit)`.  The recursion follows the Go
loop: the explicit recursive calls get fresh `wasBalanced =
wasPartitioned = true`, the `continue`/loop path keeps the updated
flags.  `fuel` bounds the loop/recursion steps; every range shrinks
each step, so `4*(b-a) + 16` is always enough. -/
def pdqsortFuel : Nat → List Mapping → Nat → Nat → Nat → Bool → Bool → List Mapping
  | 0, l, _, _, _, _, _ => l
  | fuel + 1, l, a, b, limit, wasBalanced, wasPartitioned =>
    let length := b - a
    if length ≤ 12 then insertionSortGo l a b
    else if limit = 0 then heapSortGo l a b
    else
      let p1 := if wasBalanced = false then (breakPatternsGo l a b, limit - 1) else (l, limit)
      let l := p1.1
      let limit := p1.2
      let cp := choosePivotGo l a b
      let p2 : List Mapping × Nat × Hint :=
        if cp.2 = Hint.decreasing then (reverseRangeGo l a b, (b - 1) - (cp.1 - a), Hint.increasing)
        else (l, cp.1, cp.2)
      let l := p2.1
      let pivot := p2.2.1
      let hint := p2.2.2
      let p3 : List Mapping × Bool :=
        if wasBalanced = true ∧ wasPartitioned = true ∧ hint = Hint.increasing then
          partialInsertionSortGo l a b
        else (l, false)
      if p3.2 = true then p3.1
      else
        let l := p3.1
        if 0 < a ∧ ¬ lessAt l (a - 1) pivot then
          let pe := partitionEqualGo l a b pivot
          pdqsortFuel fuel pe.1 pe.2 b limit wasBalanced wasPartitioned
        else
          let pt := partitionGo l a b pivot
          let l := pt.1
          let mid := pt.2.1
          let alreadyPartitioned := pt.2.2
          let leftLen := mid - a
          let rightLen := b - mid
          let balanceThreshold := length / 8
          let wasBalanced := decide (balanceThreshold ≤ min leftLen rightLen)
          let wasPartitioned := alreadyPartitioned
          if leftLen < rightLen then
            pdqsortFuel fuel (pdqsortFuel fuel l a mid limit true true)
              (mid + 1) b limit wasBalanced wasPartitioned
          else
            pdqsortFuel fuel (pdqsortFuel fuel l (mid + 1) b limit true true)
              a mid limit wasBalanced wasPartitioned

/-- `sort.Slice(x, less)`: `pdqsort(data, 0, n, bits.Len(uint(n)))`. -/
def sortSlice (l : List Mapping) : List Mapping :=
  pdqsortFuel (4 * l.length + 16) l 0 l.length (bitsLen l.length) true true

/-- `MappingTable` (internal/parser): the original rules plus the
length-sorted view. -/
structure MappingTable where
  mappings : List Mapping
  sorted : List Mapping
deriving DecidableEq

/-- `NewMappingTable`: copy the list and sort the copy with
`sort.Slice` by decreasing `len(From)`. -/
def NewMappingTable (mappings : List Mapping) : MappingTable :=
  { mappings := mappings, sorted := sortSlice mappings }

/-- `GetSortedMappings`. -/
def MappingTable.GetSortedMappings (mt : MappingTable) : List Mapping := mt.sorted

/-- `GetMappings`. -/
def MappingTable.GetMappings (mt : MappingTable) : List Mapping := mt.mappings

/-- `Size`. -/
def MappingTable.Size (mt : MappingTable) : Nat := mt.mappings.length

/-! ### Replacement engine (internal/replacement) -/

/-- `Replacement` (engine): one detected occurrence with its context. -/
structure Replacement where
  From : Str
  To : Str
  Line : Nat
  Column : Nat
  LineText : Str
  NewText : Str
  ByteOffset : Nat
deriving DecidableEq

instance : Inhabited Replacement := ⟨⟨[], [], 0, 0, [], [], 0⟩⟩

/-- `FileResult` (engine). -/
structure FileResult where
  Path : Str
  Replacements : List Replacement
  Modified : Bool
  OriginalSize : Nat
  NewSize : Nat
deriving DecidableEq

/-- The configuration flags the engine and scheduler read. -/
structure Config where
  CaseSensitive : Bool
  DryRun : Bool
deriving DecidableEq

/-- `ProcessContext` (engine): the state threaded through the
middleware pipeline.  The unused `Metadata` map is not modeled; the
`Error` field is kept because `ProcessFile` checks it after every
stage (none of the four standard middlewares ever sets it). -/
structure ProcessContext where
  Config : Config
  FilePath : Str
  Content : Str
  Mappings : MappingTable
  Result : FileResult
  Error : Option Str
deriving DecidableEq

/-- `dropCR` (bufio.ScanLines): strip one trailing carriage return. -/
def dropCR (line : Str) : Str :=
  if line ≠ [] ∧ line.getLast? = some cr then line.dropLast else line

/-- The token stream of `bufio.Scanner` with `bufio.ScanLines`: one
token per newline, the token excluding the newline and a trailing CR,
and a final non-empty remainder as a last token.  `bufio.Scanner`
additionally refuses tokens longer than 64 KiB — on such a line the
real scan stops silently and the engine misses every occurrence in
and after it, while this model scans all lines.  The model is
therefore exact only for contents whose lines are below the limit,
and the theorem for which this is load-bearing (C3) carries an
explicit `< 65536` bound on every scanned line. -/
def scanLines (s : Str) : List Str :=
  if s = [] then []
  else
    match findFrom s [nl] 0 with
    | none => [dropCR s]
    | some i =>
      if _h : i < s.length then dropCR (s.take i) :: scanLines (s.drop (i + 1))
      else [dropCR s]
termination_by s.length
decreasing_by simp; omega

/-- The inner loop of `detectReplacementsMiddleware` for one line and
one rule: repeated `strings.Index` probes of the line text, each
resuming right after the previous match (`startIndex = actualIndex +
len(mapping.From)`).  With an empty pattern the Go loop never
advances and never returns; the unreachable-for-nonempty-pattern
fallback returns no further position, and every theorem about
detection assumes non-empty patterns. -/
def detectPositions (lineText searchText : Str) (startIndex : Nat) : List Nat :=
  match findFrom lineText searchText startIndex with
  | none => []
  | some i =>
    if _h : startIndex < i + searchText.length ∧ i + searchText.length ≤ lineText.length then
      i :: detectPositions lineText searchText (i + searchText.length)
    else []
termination_by lineText.length + 1 - startIndex
decreasing_by omega

/-- One line of `detectReplacementsMiddleware`: iterate the rules in
sorted order; in case-insensitive mode both the pattern and the
searched text are lowered (ASCII), while the recorded `LineText`
stays the raw line and the cursor still advances by
`len(mapping.From)` (lowering preserves length). -/
def detectLine (cfg : Config) (rules : List Mapping) (lineNum : Nat)
    (lineBytes : Str) (byteOffset : Nat) : List Replacement :=
  rules.flatMap fun mapping =>
    let searchText := if cfg.CaseSensitive then mapping.From else toLower mapping.From
    let lineText := if cfg.CaseSensitive then lineBytes else toLower lineBytes
    (detectPositions lineText searchText 0).map fun actualIndex =>
      { From := mapping.From, To := mapping.To, Line := lineNum,
        Column := actualIndex + 1, LineText := lineBytes, NewText := [],
        ByteOffset := byteOffset + actualIndex }

/-- The line loop of `detectReplacementsMiddleware`: 1-based line
numbers, and a running byte offset advanced by the length of the
scanned token plus one for the newline (exactly `len(lineBytes) + 1`
on the token after `dropCR`, as in the Go code). -/
def detectLines (cfg : Config) (rules : List Mapping) : List Str → Nat → Nat → List Replacement
  | [], _, _ => []
  | line :: rest, lineNum, byteOffset =>
    detectLine cfg rules lineNum line byteOffset ++
      detectLines cfg rules rest (lineNum + 1) (byteOffset + line.length + 1)

/-- `validateInputMiddleware`: empty content or an empty rule table
mark the outcome not-modified; no error is set and the pipeline
continues (the later stages then find nothing to do). -/
def validateInputMiddleware (ctx : ProcessContext) : ProcessContext :=
  if ctx.Content.length = 0 then
    { ctx with Result := { ctx.Result with Modified := false } }
  else if ctx.Mappings.Size = 0 then
    { ctx with Result := { ctx.Result with Modified := false } }
  else ctx

/-- `detectReplacementsMiddleware`: scan line by line, record one
`Replacement` per match, and set `Modified = (occurrences ≠ ∅)`. -/
def detectReplacementsMiddleware (ctx : ProcessContext) : ProcessContext :=
  let replacements := detectLines ctx.Config ctx.Mappings.GetSortedMappings
    (scanLines ctx.Content) 1 0
  { ctx with Result := { ctx.Result with
      Replacements := replacements,
      Modified := decide (0 < replacements.length) } }

/-- The substitution fold of `applyReplacementsMiddleware` over the
sorted rules: `strings.ReplaceAll` when case-sensitive, else
`caseInsensitiveReplace`. -/
def applyRules (cfg : Config) (rules : List Mapping) (content : Str) : Str :=
  rules.foldl (fun content mapping =>
    if cfg.CaseSensitive then stringsReplaceAll content mapping.From mapping.To
    else caseInsensitiveReplace content mapping.From mapping.To) content

/-- `applyReplacementsMiddleware`: skipped in dry-run mode or when
nothing was detected; otherwise rewrite the content, record the new
size and back-fill every occurrence's `NewText` with the whole new
content. -/
def applyReplacementsMiddleware (ctx : ProcessContext) : ProcessContext :=
  if !ctx.Result.Modified || ctx.Config.DryRun then ctx
  else
    let newContent := applyRules ctx.Config ctx.Mappings.GetSortedMappings ctx.Content
    { ctx with
      Content := newContent,
      Result := { ctx.Result with
        NewSize := newContent.length,
        Replacements := ctx.Result.Replacements.map fun r => { r with NewText := newContent } } }

/-- `validateOutputMiddleware`: demote to not-modified when a non-dry
run turned non-empty content into empty content. -/
def validateOutputMiddleware (ctx : ProcessContext) : ProcessContext :=
  if ctx.Result.Modified && !ctx.Config.DryRun then
    if ctx.Content.length = 0 ∧ 0 < ctx.Result.OriginalSize then
      { ctx with Result := { ctx.Result with Modified := false } }
    else ctx
  else ctx

/-- The middleware pipeline installed by `NewEngine`, in order. -/
def standardMiddleware : List (ProcessContext → ProcessContext) :=
  [validateInputMiddleware, detectReplacementsMiddleware,
   applyReplacementsMiddleware, validateOutputMiddleware]

/-- The stage loop of `ProcessFile`: run each middleware; a stage that
set an error short-circuits the rest and forces `Modified = false`. -/
def runPipeline : List (ProcessContext → ProcessContext) → ProcessContext → ProcessContext
  | [], ctx => ctx
  | mw :: rest, ctx =>
    let ctx := mw ctx
    match ctx.Error with
    | some _ => { ctx with Result := { ctx.Result with Modified := false } }
    | none => runPipeline rest ctx

/-- `Engine.ProcessFile(filePath, content, mappings)`: build the
initial context and run the standard pipeline.  The Go method returns
`ctx.Result`; the whole final context is returned here so claims can
also speak about the (possibly rewritten) content and the error
field. -/
def ProcessFile (cfg : Config) (filePath content : Str) (mappings : MappingTable) :
    ProcessContext :=
  runPipeline standardMiddleware
    { Config := cfg, FilePath := filePath, Content := content, Mappings := mappings,
      Result := { Path := filePath, Replacements := [], Modified := false,
                  OriginalSize := content.length, NewSize := 0 },
      Error := none }

/-- The substitution fold of `writeFile` (processor.go): the scheduler
re-applies every sorted rule to the original bytes with its own
`replaceAll` / `caseInsensitiveReplaceAll` before writing the result
to the temporary file. -/
def writeFileContent (cfg : Config) (rules : List Mapping) (originalContent : Str) : Str :=
  rules.foldl (fun content mapping =>
    if cfg.CaseSensitive then replaceAll content mapping.From mapping.To
    else caseInsensitiveReplaceAll content mapping.From mapping.To) originalContent

/-! ### Backup, revert and apply (internal/backup) -/

/-- `LogEntry` (internal/backup): the persisted per-file record. -/
structure LogEntry where
  Timestamp : Str
  FilePath : Str
  OriginalSize : Nat
  NewSize : Nat
  Modified : Bool
  Replacements : List Replacement
  BackupPath : Str
  Error : Str
deriving DecidableEq

/-- The file system as revert and apply touch it: an association list
from paths to byte contents. -/
abbrev FileSys := List (Str × Str)

/-- Read a file (`os.ReadFile` / `os.Stat` both observe this). -/
def fsRead (fs : FileSys) (path : Str) : Option Str :=
  (fs.find? fun e => decide (e.1 = path)).map (·.2)

/-- Write a file, creating it when absent (`os.WriteFile`,
`os.Create` + copy). -/
def fsWrite (fs : FileSys) (path content : Str) : FileSys :=
  if fs.any fun e => decide (e.1 = path) then
    fs.map fun e => if e.1 = path then (path, content) else e
  else fs ++ [(path, content)]

/-- The failures `revertEntry` can meet in this model. -/
inductive RevertErr where
  | backupNotFound (backupPath : Str)
  | readFailed (filePath : Str)
deriving DecidableEq

/-- The substitution fold of `applyReplacements` (ApplyManager):
replace `From → To` with `strings.ReplaceAll`, once per recorded
occurrence, in recorded order. -/
def applyReplacementsContent (repls : List Replacement) (content : Str) : Str :=
  repls.foldl (fun content repl => stringsReplaceAll content repl.From repl.To) content

/-- The substitution fold of `reverseReplacements` (RevertManager):
replace `To → From` with `strings.ReplaceAll`, once per recorded
occurrence, in recorded order. -/
def reverseReplacementsContent (repls : List Replacement) (content : Str) : Str :=
  repls.foldl (fun content repl => stringsReplaceAll content repl.To repl.From) content

/-- `reverseReplacements` (RevertManager): read the file, substitute
every occurrence back, write the result. -/
def reverseReplacements (fs : FileSys) (entry : LogEntry) : Except RevertErr FileSys :=
  match fsRead fs entry.FilePath with
  | none => .error (.readFailed entry.FilePath)
  | some content =>
    .ok (fsWrite fs entry.FilePath (reverseReplacementsContent entry.Replacements content))

/-- `restoreFromBackup` / `Manager.RestoreFile`: fail when the backup
file does not exist, else overwrite the original with its bytes. -/
def restoreFromBackup (fs : FileSys) (originalPath backupPath : Str) : Except RevertErr FileSys :=
  match fsRead fs backupPath with
  | none => .error (.backupNotFound backupPath)
  | some content => .ok (fsWrite fs originalPath content)

/-- `revertEntry`: restore from the backup when one is recorded, else
fall back to reverse replacements. -/
def revertEntry (fs : FileSys) (entry : LogEntry) : Except RevertErr FileSys :=
  if entry.BackupPath ≠ [] then restoreFromBackup fs entry.FilePath entry.BackupPath
  else reverseReplacements fs entry

/-- The entry loop of `RevertFromLogWithFormat`: skip entries that were
not modified or recorded an error; a failing entry is recorded and
processing continues with the next entry.  Returns the final file
system, the revert count, and the errors in order. -/
def revertLoop (fs : FileSys) : List LogEntry → FileSys × Nat × List RevertErr
  | [] => (fs, 0, [])
  | entry :: rest =>
    if !entry.Modified || entry.Error ≠ [] then revertLoop fs rest
    else
      match revertEntry fs entry with
      | .error e =>
        let r := revertLoop fs rest
        (r.1, r.2.1, e :: r.2.2)
      | .ok fs' =>
        let r := revertLoop fs' rest
        (r.1, r.2.1 + 1, r.2.2)

/-- The aggregate failure `RevertFromLogWithFormat` builds: the two
counts it formats into its message and the first entry error, which
it wraps as the cause. -/
structure RevertAggErr where
  reverted : Nat
  failed : Nat
  first : RevertErr
deriving DecidableEq

/-- `RevertFromLogWithFormat`, from the parsed entries on: process all
entries, then fail only if some entry failed, reporting how many
succeeded and wrapping the first error. -/
def RevertFromEntries (fs : FileSys) (entries : List LogEntry) :
    FileSys × Option RevertAggErr :=
  let r := revertLoop fs entries
  match r.2.2 with
  | [] => (r.1, none)
  | e :: rest => (r.1, some { reverted := r.2.1, failed := rest.length + 1, first := e })

/-! ### CSV log parsing (parseCSVLog, internal/backup) -/

/-- ASCII white space, as `strings.TrimSpace` treats ASCII bytes. -/
def isSpaceByte (b : Nat) : Bool := b = 32 || b = 9 || b = 10 || b = 11 || b = 12 || b = 13

/-- `strings.TrimSpace` on byte strings. -/
def trimSpace (s : Str) : Str :=
  ((s.dropWhile isSpaceByte).reverse.dropWhile isSpaceByte).reverse

/-- Split a byte string at every occurrence of the byte `sep`
(`strings.Split`; a trailing separator yields a final empty piece). -/
def splitByte (sep : Nat) : Str → List Str
  | [] => [[]]
  | c :: rest =>
    if c = sep then [] :: splitByte sep rest
    else
      match splitByte sep rest with
      | [] => [[c]]
      | t :: ts => (c :: t) :: ts

/-- The grouping loop of `parseCSVLog`: one `LogEntry` per distinct
file path, `Modified = true`, one `Replacement` appended per row.  Go
iterates its map in unspecified order when flattening it back to a
slice; this model lists entries in order of first appearance, and the
claims checked about the result do not depend on the order. -/
def groupStep (entries : List LogEntry) (row : Str × Str × Str) : List LogEntry :=
  if entries.any fun e => decide (e.FilePath = row.1) then
    entries.map fun e =>
      if e.FilePath = row.1 then
        { e with Replacements :=
            e.Replacements ++ [{ From := row.2.1, To := row.2.2, Line := 0, Column := 0,
                                 LineText := [], NewText := [], ByteOffset := 0 }] }
      else e
  else
    entries ++ [{ Timestamp := [], FilePath := row.1, OriginalSize := 0, NewSize := 0,
                  Modified := true,
                  Replacements := [{ From := row.2.1, To := row.2.2, Line := 0, Column := 0,
                                     LineText := [], NewText := [], ByteOffset := 0 }],
                  BackupPath := [], Error := [] }]

/-- The grouping loop itself: fold `groupStep` over the rows. -/
def groupRows (rows : List (Str × Str × Str)) : List LogEntry :=
  rows.foldl groupStep []

/-- `parseCSVLog` (RevertManager / ApplyManager): drop blank lines and
`#` comment lines (after trimming), read the rest as comma-separated
rows (the log writer emits no quoted fields, so encoding/csv quoting
is not modeled), skip the header row (`i == 0`) and every row with
fewer than 5 fields, and group the rows by file path. -/
def parseCSVLog (content : Str) : Except String (List LogEntry) :=
  let csvLines := ((splitByte nl content).map trimSpace).filter
    fun l => decide ¬(l = [] ∨ l.head? = some 35)
  if csvLines = [] then .error "no CSV data found in log file"
  else
    let records := csvLines.map (splitByte 44)
    if records = [] then .error "no records found in CSV"
    else
      let rows := (records.drop 1).filter (fun r => 5 ≤ r.length)
      .ok (groupRows (rows.map fun r => (r.getD 0 [], r.getD 1 [], r.getD 2 [])))

/-! ### Specification views

The four replace-all loops are all proved equal to one canonical
description: the gaps of the greedy left-to-right non-overlapping
match scan of the *original* content, joined back with the
replacement.  These derived definitions exist only to state and prove
theorems; they are not part of the embedding of the Go code. -/

/-- The pieces of `s` around the greedy non-overlapping left-to-right
matches of `pat`: `s = u₀ ++ pat ++ u₁ ++ … ++ pat ++ u_k` with every
match taken at the least index at or after the end of the previous
one. -/
def greedySplit (pat : Str) (s : Str) : List Str :=
  if pat = [] then [s]
  else
    match findFrom s pat 0 with
    | none => [s]
    | some i =>
      if _h : i + pat.length ≤ s.length ∧ 0 < pat.length then
        s.take i :: greedySplit pat (s.drop (i + pat.length))
      else [s]
termination_by s.length
decreasing_by simp; omega

/-- Greedy case-insensitive matches: the scan runs on the ASCII-lowered
content and pattern, the pieces are cut out of the original bytes. -/
def greedySplitCI (pat : Str) (s : Str) : List Str :=
  if pat = [] then [s]
  else
    match findFrom (toLower s) (toLower pat) 0 with
    | none => [s]
    | some i =>
      if _h : i + pat.length ≤ s.length ∧ 0 < pat.length then
        s.take i :: greedySplitCI pat (s.drop (i + pat.length))
      else [s]
termination_by s.length
decreasing_by simp; omega

/-- `joinWith x [u₀, u₁, …, u_k] = u₀ ++ x ++ u₁ ++ … ++ x ++ u_k`. -/
def joinWith (x : Str) : List Str → Str
  | [] => []
  | [u] => u
  | u :: rest => u ++ x ++ joinWith x rest

/-- The sort key comparison stated by the spec: non-decreasing length of
`From` (the spec's sorted view is its reverse). -/
def lenLE (x y : Mapping) : Prop := x.From.length ≤ y.From.length

instance : DecidableRel lenLE := fun x y => by unfold lenLE; infer_instance

instance : IsTotal Mapping lenLE := ⟨fun x y => Nat.le_total x.From.length y.From.length⟩

instance : IsTrans Mapping lenLE := ⟨fun _ _ _ h1 h2 => Nat.le_trans h1 h2⟩

/-- One sufficient reading of the spec's "non-overlapping rule set"
for the apply/revert round trip (the multi-rule marker form, conjunct
A of C5): every occurrence rewrites a non-empty `from` to a single
marker byte that is fresh — it appears neither in the original
content nor in any occurrence's `from` — and occurrences sharing a
marker byte agree on their `from` (as the log records one row per
occurrence of the same rule).  Conjunct B of C5 covers the ordinary
single-rule form (`foo → bar` style) through `Unbordered` instead. -/
def NonOverlapping (repls : List Replacement) (content : Str) : Prop :=
  (∀ r ∈ repls, r.From ≠ []) ∧
  (∀ r ∈ repls, ∃ x : Nat, r.To = [x] ∧ x ∉ content ∧ ∀ r2 ∈ repls, x ∉ r2.From) ∧
  (∀ r1 ∈ repls, ∀ r2 ∈ repls, r1.To = r2.To → r1.From = r2.From)

/-- The byte-wise substitution the revert fold implements on such
occurrence lists: the first occurrence whose `to` is the single byte
`b` maps `b` back to its `from`; other bytes stay. -/
def sigmaRev (repls : List Replacement) (b : Nat) : Str :=
  match repls.find? (fun r => decide (r.To = [b])) with
  | some r => r.From
  | none => [b]

/-- `t` has no border: no non-empty proper prefix of `t` is also a
suffix of `t`.  This is what rules out the round-trip failure of
bordered `to` strings (for example `to = "aa"`, whose copies can merge
with neighbouring content into a spurious earlier match of the revert
scan): with an unbordered `to`, every occurrence of `to` in the
substituted content is one of the inserted copies. -/
def Unbordered (t : Str) : Prop :=
  ∀ b, b < t.length → 0 < b → t.take b ≠ t.drop (t.length - b)

instance (t : Str) : Decidable (Unbordered t) := by
  unfold Unbordered; infer_instance

/-- The stable sort described by the spec, built up in reverse
(ascending) order: each rule is inserted into the already-sorted
ascending accumulator before any rule of equal `From`-length. -/
def stableSortRev (l : List Mapping) : List Mapping :=
  l.foldl (fun r x => List.orderedInsert lenLE x r) []

/-- The spec's sorted view: `From`-length non-increasing, equal lengths
in insertion order. -/
def stableSortView (l : List Mapping) : List Mapping := (stableSortRev l).reverse

end Remap
namespace Remap

/-! ## Theorems -/

theorem occursAt_length_le {s pat : Str} {i : Nat} (hp : pat ≠ []) (h : occursAt s pat i) :
    i + pat.length ≤ s.length := by
  unfold occursAt at h
  have hl := congrArg List.length h
  simp [List.length_take, List.length_drop] at hl
  have : pat.length ≠ 0 := fun hh => hp (List.eq_nil_of_length_eq_zero hh)
  omega

theorem findFrom_some {c p : Str} {s i : Nat} (h : findFrom c p s = some i) :
    s ≤ i ∧ i + p.length ≤ c.length ∧ occursAt c p i := by
  suffices H : ∀ n s i, c.length + 1 - s ≤ n → findFrom c p s = some i →
      s ≤ i ∧ i + p.length ≤ c.length ∧ occursAt c p i from H (c.length + 1) s i (by omega) h
  intro n
  induction n with
  | zero =>
    intro s i hn hf
    rw [findFrom] at hf
    have hgt : ¬ (s + p.length ≤ c.length) := by omega
    simp [hgt] at hf
  | succ n ih =>
    intro s i hn hf
    rw [findFrom] at hf
    by_cases hle : s + p.length ≤ c.length
    · by_cases hocc : occursAt c p s
      · simp [hle, hocc] at hf
        subst hf
        exact ⟨le_rfl, hle, hocc⟩
      · simp [hle, hocc] at hf
        obtain ⟨h1, h2, h3⟩ := ih (s + 1) i (by omega) hf
        exact ⟨by omega, h2, h3⟩
    · simp [hle] at hf

theorem findFrom_least {c p : Str} {s i : Nat} (h : findFrom c p s = some i) :
    ∀ j, s ≤ j → j < i → ¬ occursAt c p j := by
  suffices H : ∀ n s i, c.length + 1 - s ≤ n → findFrom c p s = some i →
      ∀ j, s ≤ j → j < i → ¬ occursAt c p j from H (c.length + 1) s i (by omega) h
  intro n
  induction n with
  | zero =>
    intro s i hn hf
    rw [findFrom] at hf
    have hgt : ¬ (s + p.length ≤ c.length) := by omega
    simp [hgt] at hf
  | succ n ih =>
    intro s i hn hf j hsj hji
    rw [findFrom] at hf
    by_cases hle : s + p.length ≤ c.length
    · by_cases hocc : occursAt c p s
      · simp [hle, hocc] at hf
        omega
      · simp [hle, hocc] at hf
        rcases Nat.eq_or_lt_of_le hsj with rfl | hlt
        · exact hocc
        · exact ih (s + 1) i (by omega) hf j hlt hji
    · simp [hle] at hf

theorem findFrom_none {c p : Str} {s : Nat} (h : findFrom c p s = none) :
    ∀ j, s ≤ j → j + p.length ≤ c.length → ¬ occursAt c p j := by
  suffices H : ∀ n s, c.length + 1 - s ≤ n → findFrom c p s = none →
      ∀ j, s ≤ j → j + p.length ≤ c.length → ¬ occursAt c p j from
    H (c.length + 1) s (by omega) h
  intro n
  induction n with
  | zero =>
    intro s hn hf j hsj hjb
    omega
  | succ n ih =>
    intro s hn hf j hsj hjb
    rw [findFrom] at hf
    by_cases hle : s + p.length ≤ c.length
    · by_cases hocc : occursAt c p s
      · simp [hle, hocc] at hf
      · simp [hle, hocc] at hf
        rcases Nat.eq_or_lt_of_le hsj with rfl | hlt
        · exact hocc
        · exact ih (s + 1) (by omega) hf j hlt hjb
    · intro hocc
      omega

theorem findFrom_eq_some_iff {c p : Str} {s i : Nat} :
    findFrom c p s = some i ↔
      s ≤ i ∧ i + p.length ≤ c.length ∧ occursAt c p i ∧
        ∀ j, s ≤ j → j < i → ¬ occursAt c p j := by
  constructor
  · intro h
    obtain ⟨h1, h2, h3⟩ := findFrom_some h
    exact ⟨h1, h2, h3, findFrom_least h⟩
  · rintro ⟨h1, h2, h3, h4⟩
    cases hf : findFrom c p s with
    | none => exact absurd h3 (findFrom_none hf i h1 h2)
    | some k =>
      obtain ⟨k1, k2, k3⟩ := findFrom_some hf
      have hki : ¬ k < i := fun hlt => h4 k k1 hlt k3
      have hik : ¬ i < k := fun hlt => findFrom_least hf i h1 hlt h3
      have hk : k = i := by omega
      rw [hk]

theorem occursAt_drop {c p : Str} {s j : Nat} :
    occursAt (c.drop s) p j ↔ occursAt c p (s + j) := by
  unfold occursAt
  rw [List.drop_drop]

theorem findFrom_shift {c p : Str} {s : Nat} (hs : s ≤ c.length) :
    findFrom c p s = (findFrom (c.drop s) p 0).map (fun i => i + s) := by
  cases hf : findFrom (c.drop s) p 0 with
  | none =>
    simp only [Option.map]
    cases hg : findFrom c p s with
    | none => rfl
    | some i =>
      obtain ⟨h1, h2, h3⟩ := findFrom_some hg
      have hocc : occursAt (c.drop s) p (i - s) := by
        rw [occursAt_drop]
        have he : s + (i - s) = i := by omega
        rw [he]; exact h3
      have hb : (i - s) + p.length ≤ (c.drop s).length := by
        simp [List.length_drop]; omega
      exact absurd hocc (findFrom_none hf (i - s) (by omega) hb)
  | some k =>
    obtain ⟨k1, k2, k3⟩ := findFrom_some hf
    simp only [Option.map]
    rw [findFrom_eq_some_iff]
    rw [occursAt_drop] at k3
    simp only [List.length_drop] at k2
    refine ⟨by omega, by omega, by rw [Nat.add_comm k s]; exact k3, ?_⟩
    intro j hsj hji hocc
    have hj : occursAt (c.drop s) p (j - s) := by
      rw [occursAt_drop]
      have he : s + (j - s) = j := by omega
      rw [he]; exact hocc
    exact findFrom_least hf (j - s) (by omega) (by omega) hj

theorem toLower_length (s : Str) : (toLower s).length = s.length := by
  simp [toLower]

theorem toLower_drop (s : Str) (n : Nat) : toLower (s.drop n) = (toLower s).drop n := by
  simp [toLower, List.map_drop]

theorem toLower_nil : toLower [] = [] := rfl

theorem toLower_ne_nil {s : Str} (h : s ≠ []) : toLower s ≠ [] := by
  cases s with
  | nil => exact absurd rfl h
  | cons a l => simp [toLower]

theorem occursAt_split {s pat : Str} {i : Nat}
    (h : occursAt s pat i) : s = s.take i ++ pat ++ s.drop (i + pat.length) := by
  unfold occursAt at h
  conv_lhs => rw [← List.take_append_drop i s]
  rw [List.append_assoc]
  congr 1
  conv_lhs => rw [← List.take_append_drop pat.length (s.drop i)]
  rw [h, List.drop_drop]

theorem greedySplit_ne_nil (pat s : Str) : greedySplit pat s ≠ [] := by
  rw [greedySplit]
  by_cases hp : pat = []
  · simp [hp]
  · simp only [hp, if_false]
    cases h : findFrom s pat 0 with
    | none => simp
    | some i =>
      by_cases hb : i + pat.length ≤ s.length ∧ 0 < pat.length
      · simp [hb]
      · simp [hb]

theorem greedySplitCI_ne_nil (pat s : Str) : greedySplitCI pat s ≠ [] := by
  rw [greedySplitCI]
  by_cases hp : pat = []
  · simp [hp]
  · simp only [hp, if_false]
    cases h : findFrom (toLower s) (toLower pat) 0 with
    | none => simp
    | some i =>
      by_cases hb : i + pat.length ≤ s.length ∧ 0 < pat.length
      · simp [hb]
      · simp [hb]

theorem joinWith_cons {x u : Str} {rest : List Str} (h : rest ≠ []) :
    joinWith x (u :: rest) = u ++ x ++ joinWith x rest := by
  cases rest with
  | nil => exact absurd rfl h
  | cons v vs => rfl

theorem joinWith_greedySplit {pat : Str} (hp : pat ≠ []) (s : Str) :
    joinWith pat (greedySplit pat s) = s := by
  suffices H : ∀ n s, (s : Str).length ≤ n → joinWith pat (greedySplit pat s) = s from
    H s.length s le_rfl
  intro n
  induction n with
  | zero =>
    intro s hn
    have hs : s = [] := List.eq_nil_of_length_eq_zero (by omega)
    subst hs
    have hplen : 0 < pat.length := List.length_pos.mpr hp
    have hc : ¬ ((0 : Nat) + pat.length ≤ ([] : Str).length) := by simp only [List.length_nil]; omega
    rw [greedySplit, findFrom, if_neg hc]
    simp [hp, joinWith]
  | succ n ih =>
    intro s hn
    rw [greedySplit]
    simp only [hp, if_false]
    cases h : findFrom s pat 0 with
    | none => simp [joinWith]
    | some i =>
      obtain ⟨_, hb, hocc⟩ := findFrom_some h
      have hplen : 0 < pat.length := List.length_pos.mpr hp
      have hguard : i + pat.length ≤ s.length ∧ 0 < pat.length := ⟨hb, hplen⟩
      dsimp only
      rw [dif_pos hguard, joinWith_cons (greedySplit_ne_nil pat _)]
      rw [ih (s.drop (i + pat.length)) (by simp [List.length_drop]; omega)]
      exact (occursAt_split hocc).symm


theorem replaceAllLoop_eq {old new : Str} (hold : old ≠ []) :
    ∀ s start, start ≤ (s : Str).length →
      replaceAllLoop s old new start = joinWith new (greedySplit old (s.drop start)) := by
  have hplen : 0 < old.length := List.length_pos.mpr hold
  suffices H : ∀ n s start, (s : Str).length + 1 - start ≤ n → start ≤ s.length →
      replaceAllLoop s old new start = joinWith new (greedySplit old (s.drop start)) from
    fun s start hs => H (s.length + 1) s start (by omega) hs
  intro n
  induction n with
  | zero => intro s start hn hs; omega
  | succ n ih =>
    intro s start hn hs
    rw [replaceAllLoop, findFrom_shift hs]
    cases hf : findFrom (s.drop start) old 0 with
    | none =>
      simp only [Option.map]
      rw [greedySplit]
      simp only [hold, if_false]
      rw [hf]
      simp [joinWith]
    | some k =>
      obtain ⟨hk0, hkb, hkocc⟩ := findFrom_some hf
      simp only [List.length_drop] at hkb
      simp only [Option.map]
      have hg1 : start < k + start + old.length ∧ k + start + old.length ≤ s.length :=
        ⟨by omega, by omega⟩
      rw [dif_pos hg1]
      rw [greedySplit]
      simp only [hold, if_false]
      rw [hf]
      have hg2 : k + old.length ≤ (s.drop start).length ∧ 0 < old.length := by
        simp only [List.length_drop]; exact ⟨by omega, hplen⟩
      dsimp only
      rw [dif_pos hg2, joinWith_cons (greedySplit_ne_nil old _)]
      rw [List.drop_take, List.drop_drop]
      have he1 : k + start - start = k := by omega
      have he2 : start + (k + old.length) = k + start + old.length := by omega
      rw [he1, he2]
      rw [ih s (k + start + old.length) (by omega) (by omega)]

theorem replaceAll_eq_joinWith {old : Str} (hold : old ≠ []) (c new : Str) :
    replaceAll c old new = joinWith new (greedySplit old c) := by
  rw [replaceAll, if_neg hold, replaceAllLoop_eq hold c 0 (by omega), List.drop_zero]

theorem stringsReplaceAll_eq_joinWith {old : Str} (hold : old ≠ []) (s new : Str) :
    stringsReplaceAll s old new = joinWith new (greedySplit old s) := by
  rw [stringsReplaceAll, if_neg hold, replaceAllLoop_eq hold s 0 (by omega), List.drop_zero]

theorem replaceAll_eq_stringsReplaceAll {old : Str} (hold : old ≠ []) (c new : Str) :
    replaceAll c old new = stringsReplaceAll c old new := by
  rw [replaceAll_eq_joinWith hold, stringsReplaceAll_eq_joinWith hold]

theorem findFrom_nil {pat : Str} (hp : pat ≠ []) : findFrom [] pat 0 = none := by
  have hplen : 0 < pat.length := List.length_pos.mpr hp
  have hc : ¬ ((0 : Nat) + pat.length ≤ ([] : Str).length) := by
    simp only [List.length_nil]; omega
  rw [findFrom, if_neg hc]

theorem greedySplitCI_nil {f : Str} (hf : f ≠ []) : greedySplitCI f [] = [[]] := by
  rw [greedySplitCI]
  simp only [hf, if_false]
  rw [show toLower [] = [] from rfl, findFrom_nil (toLower_ne_nil hf)]

theorem ciReplaceLoop_eq {f : Str} (hf : f ≠ []) (t : Str) :
    ∀ c start, start ≤ (c : Str).length →
      ciReplaceLoop c (toLower c) (toLower f) t f.length start =
        joinWith t (greedySplitCI f (c.drop start)) := by
  have hplen : 0 < f.length := List.length_pos.mpr hf
  suffices H : ∀ n c start, (c : Str).length + 1 - start ≤ n → start ≤ c.length →
      ciReplaceLoop c (toLower c) (toLower f) t f.length start =
        joinWith t (greedySplitCI f (c.drop start)) from
    fun c start hs => H (c.length + 1) c start (by omega) hs
  intro n
  induction n with
  | zero => intro c start hn hs; omega
  | succ n ih =>
    intro c start hn hs
    have hsl : start ≤ (toLower c).length := by rw [toLower_length]; exact hs
    rw [ciReplaceLoop, findFrom_shift hsl, ← toLower_drop]
    cases hft : findFrom (toLower (c.drop start)) (toLower f) 0 with
    | none =>
      simp only [Option.map]
      rw [greedySplitCI]
      simp only [hf, if_false]
      rw [hft]
      simp [joinWith]
    | some k =>
      obtain ⟨hk0, hkb, hkocc⟩ := findFrom_some hft
      rw [toLower_length, toLower_length, List.length_drop] at hkb
      simp only [Option.map]
      have hg1 : start < k + start + f.length ∧ k + start + f.length ≤ (toLower c).length := by
        rw [toLower_length]; exact ⟨by omega, by omega⟩
      rw [dif_pos hg1]
      rw [greedySplitCI]
      simp only [hf, if_false]
      rw [hft]
      have hg2 : k + f.length ≤ (c.drop start).length ∧ 0 < f.length := by
        rw [List.length_drop]; exact ⟨by omega, hplen⟩
      dsimp only
      rw [dif_pos hg2, joinWith_cons (greedySplitCI_ne_nil f _)]
      rw [List.drop_take, List.drop_drop]
      have he1 : k + start - start = k := by omega
      have he2 : start + (k + f.length) = k + start + f.length := by omega
      rw [he1, he2]
      rw [ih c (k + start + f.length) (by omega) (by omega)]

theorem caseInsensitiveReplace_eq {f : Str} (hf : f ≠ []) (c t : Str) :
    caseInsensitiveReplace c f t = joinWith t (greedySplitCI f c) := by
  rw [caseInsensitiveReplace, if_neg hf, ciReplaceLoop_eq hf t c 0 (by omega), List.drop_zero]

theorem ciReplaceAllLoop_eq {f : Str} (hf : f ≠ []) (t : Str) :
    ∀ c start, start ≤ (c : Str).length →
      ciReplaceAllLoop c f t start = joinWith t (greedySplitCI f (c.drop start)) := by
  have hplen : 0 < f.length := List.length_pos.mpr hf
  suffices H : ∀ n c start, (c : Str).length + 1 - start ≤ n → start ≤ c.length →
      ciReplaceAllLoop c f t start = joinWith t (greedySplitCI f (c.drop start)) from
    fun c start hs => H (c.length + 1) c start (by omega) hs
  intro n
  induction n with
  | zero => intro c start hn hs; omega
  | succ n ih =>
    intro c start hn hs
    rw [ciReplaceAllLoop]
    by_cases hlt : start < c.length
    · rw [if_pos hlt]
      have hsl : start ≤ (toLower c).length := by rw [toLower_length]; exact hs
      rw [show caseInsensitiveFindStringFrom c f start =
            findFrom (toLower c) (toLower f) start from rfl]
      rw [findFrom_shift hsl, ← toLower_drop]
      cases hft : findFrom (toLower (c.drop start)) (toLower f) 0 with
      | none =>
        simp only [Option.map]
        rw [greedySplitCI]
        simp only [hf, if_false]
        rw [hft]
        simp [joinWith]
      | some k =>
        obtain ⟨hk0, hkb, hkocc⟩ := findFrom_some hft
        rw [toLower_length, toLower_length, List.length_drop] at hkb
        simp only [Option.map]
        have hg1 : start < k + start + f.length ∧ k + start + f.length ≤ c.length :=
          ⟨by omega, by omega⟩
        rw [dif_pos hg1]
        rw [greedySplitCI]
        simp only [hf, if_false]
        rw [hft]
        have hg2 : k + f.length ≤ (c.drop start).length ∧ 0 < f.length := by
          rw [List.length_drop]; exact ⟨by omega, hplen⟩
        dsimp only
        rw [dif_pos hg2, joinWith_cons (greedySplitCI_ne_nil f _)]
        rw [List.drop_take, List.drop_drop]
        have he1 : k + start - start = k := by omega
        have he2 : start + (k + f.length) = k + start + f.length := by omega
        rw [he1, he2]
        rw [ih c (k + start + f.length) (by omega) (by omega)]
    · rw [if_neg hlt]
      have hse : start = c.length := by omega
      have hde : c.drop start = [] := by
        apply List.drop_eq_nil_of_le
        omega
      rw [hde, greedySplitCI_nil hf]
      rfl

theorem caseInsensitiveReplaceAll_eq {f : Str} (hf : f ≠ []) (c t : Str) :
    caseInsensitiveReplaceAll c f t = joinWith t (greedySplitCI f c) := by
  rw [caseInsensitiveReplaceAll, if_neg hf, ciReplaceAllLoop_eq hf t c 0 (by omega),
    List.drop_zero]

theorem caseInsensitiveReplace_eq_replaceAll {f : Str} (hf : f ≠ []) (c t : Str) :
    caseInsensitiveReplace c f t = caseInsensitiveReplaceAll c f t := by
  rw [caseInsensitiveReplace_eq hf, caseInsensitiveReplaceAll_eq hf]

theorem joinWith_length (x : Str) (gs : List Str) :
    (joinWith x gs).length = (gs.map List.length).sum + (gs.length - 1) * x.length := by
  induction gs with
  | nil => simp [joinWith]
  | cons u rest ih =>
    cases rest with
    | nil => simp [joinWith]
    | cons v vs =>
      rw [joinWith_cons (by simp)]
      simp only [List.length_append, ih, List.map_cons, List.sum_cons, List.length_cons]
      have h2 : (vs.length + 1 - 1) = vs.length := by omega
      have h3 : (vs.length + 1 + 1 - 1) = vs.length + 1 := by omega
      rw [h2, h3, Nat.succ_mul]
      omega

theorem occursIn_findFrom {pat s : Str} (hp : pat ≠ []) (h : occursIn s pat) :
    ∃ i, findFrom s pat 0 = some i := by
  cases hf : findFrom s pat 0 with
  | some i => exact ⟨i, rfl⟩
  | none =>
    obtain ⟨i, hi⟩ := h
    exact absurd hi (findFrom_none hf i (by omega) (occursAt_length_le hp hi))

theorem greedySplit_of_occurs {pat s : Str} (hp : pat ≠ []) (h : occursIn s pat) :
    ∃ u rest, greedySplit pat s = u :: rest ∧ rest ≠ [] := by
  obtain ⟨i, hf⟩ := occursIn_findFrom hp h
  obtain ⟨_, hb, _⟩ := findFrom_some hf
  have hguard : i + pat.length ≤ s.length ∧ 0 < pat.length :=
    ⟨hb, List.length_pos.mpr hp⟩
  refine ⟨s.take i, greedySplit pat (s.drop (i + pat.length)), ?_, greedySplit_ne_nil pat _⟩
  rw [greedySplit]
  simp only [hp, if_false]
  rw [hf]
  dsimp only
  rw [dif_pos hguard]

theorem greedySplit_of_not_occurs {pat s : Str} (hp : pat ≠ []) (h : ¬ occursIn s pat) :
    greedySplit pat s = [s] := by
  rw [greedySplit]
  simp only [hp, if_false]
  cases hf : findFrom s pat 0 with
  | none => rfl
  | some i =>
    obtain ⟨_, _, hocc⟩ := findFrom_some hf
    exact absurd ⟨i, hocc⟩ h

theorem stringsReplaceAll_self {old s : Str} (hold : old ≠ []) :
    stringsReplaceAll s old old = s := by
  rw [stringsReplaceAll_eq_joinWith hold]
  exact joinWith_greedySplit hold s

theorem stringsReplaceAll_of_not_occurs {old s : Str} (hold : old ≠ [])
    (h : ¬ occursIn s old) (new : Str) : stringsReplaceAll s old new = s := by
  rw [stringsReplaceAll_eq_joinWith hold, greedySplit_of_not_occurs hold h]
  rfl

theorem stringsReplaceAll_ne {old new s : Str} (hold : old ≠ [])
    (hocc : occursIn s old) (hne : new ≠ old) : stringsReplaceAll s old new ≠ s := by
  obtain ⟨u, rest, hsplit, hrest⟩ := greedySplit_of_occurs hold hocc
  have hs : s = joinWith old (u :: rest) := by
    rw [← hsplit]; exact (joinWith_greedySplit hold s).symm
  rw [stringsReplaceAll_eq_joinWith hold, hsplit]
  intro heq
  rw [hs] at heq
  by_cases hlen : new.length = old.length
  · rw [joinWith_cons hrest, joinWith_cons hrest] at heq
    rw [List.append_assoc, List.append_assoc] at heq
    have h2 := List.append_cancel_left heq
    have h3 := List.append_inj h2 hlen
    exact hne h3.1
  · have h1 := congrArg List.length heq
    rw [joinWith_length, joinWith_length] at h1
    have hrl : 1 ≤ (u :: rest).length - 1 := by
      cases rest with
      | nil => exact absurd rfl hrest
      | cons a b => simp
    rcases Nat.lt_or_ge new.length old.length with hlt | hge
    · have := Nat.mul_lt_mul_of_le_of_lt (le_refl ((u :: rest).length - 1)) hlt (by omega)
      omega
    · have hgt : old.length < new.length := by omega
      have := Nat.mul_lt_mul_of_le_of_lt (le_refl ((u :: rest).length - 1)) hgt (by omega)
      omega

theorem stringsReplaceAll_ne_iff {old new s : Str} (hold : old ≠ []) :
    stringsReplaceAll s old new ≠ s ↔ occursIn s old ∧ new ≠ old := by
  constructor
  · intro h
    by_cases hocc : occursIn s old
    · refine ⟨hocc, ?_⟩
      rintro rfl
      exact h (stringsReplaceAll_self hold)
    · exact absurd (stringsReplaceAll_of_not_occurs hold hocc new) h
  · rintro ⟨hocc, hne⟩
    exact stringsReplaceAll_ne hold hocc hne

theorem occursIn_of_infixOf {u s pat : Str} (hp : pat ≠ []) (h : occursIn u pat)
    (hinf : u <:+: s) : occursIn s pat := by
  obtain ⟨i, hi⟩ := h
  obtain ⟨a, b, hab⟩ := hinf
  refine ⟨a.length + i, ?_⟩
  have hb := occursAt_length_le hp hi
  unfold occursAt at hi ⊢
  rw [← hab]
  rw [List.append_assoc, List.drop_append, List.drop_append_of_le_length (by omega)]
  rw [List.take_append_of_le_length (by simp [List.length_drop]; omega)]
  exact hi

theorem applyRules_eq_writeFileContent (cfg : Config) (rules : List Mapping) (content : Str)
    (hne : ∀ r ∈ rules, r.From ≠ []) :
    applyRules cfg rules content = writeFileContent cfg rules content := by
  induction rules generalizing content with
  | nil => rfl
  | cons r rs ih =>
    unfold applyRules writeFileContent
    simp only [List.foldl_cons]
    have hr : r.From ≠ [] := hne r (by simp)
    have hstep : (if cfg.CaseSensitive then stringsReplaceAll content r.From r.To
        else caseInsensitiveReplace content r.From r.To) =
        (if cfg.CaseSensitive then replaceAll content r.From r.To
        else caseInsensitiveReplaceAll content r.From r.To) := by
      by_cases hcs : cfg.CaseSensitive
      · simp only [hcs, if_true]
        exact (replaceAll_eq_stringsReplaceAll hr content r.To).symm
      · simp only [hcs, if_false]
        exact caseInsensitiveReplace_eq_replaceAll hr content r.To
    rw [hstep]
    exact ih _ fun x hx => hne x (by simp [hx])

/-- C4: the case-insensitive replace-all never re-matches text it has
itself introduced.  First conjunct: when the fold-aware search finds
the first match of `from` at index `i` of the original content, the
result is the original bytes before `i`, the replacement, and then
`caseInsensitiveReplace` of the *original* content past the end of
the matched region — the scan resumes at `i + len(from)` of the
original, so replacement text is never rescanned.  Second conjunct:
the claim's concrete instance, `replace("aaaa", "aa", "aaa")`
terminates with `"aaaaaa"` (two disjoint matches, no re-expansion);
termination for every non-empty pattern is witnessed by the function
being total in this embedding. -/
theorem C4_ci_replace_no_rematch (c f t : Str) (hf : f ≠ []) :
    (∀ i, findFrom (toLower c) (toLower f) 0 = some i →
      caseInsensitiveReplace c f t =
        c.take i ++ t ++ caseInsensitiveReplace (c.drop (i + f.length)) f t) ∧
    caseInsensitiveReplace [97, 97, 97, 97] [97, 97] [97, 97, 97] =
      [97, 97, 97, 97, 97, 97] := by
  constructor
  · intro i hft
    obtain ⟨_, hb, _⟩ := findFrom_some hft
    rw [toLower_length, toLower_length] at hb
    have hguard : i + f.length ≤ c.length ∧ 0 < f.length :=
      ⟨hb, List.length_pos.mpr hf⟩
    rw [caseInsensitiveReplace_eq hf, greedySplitCI]
    simp only [hf, if_false]
    rw [hft]
    dsimp only
    rw [dif_pos hguard, joinWith_cons (greedySplitCI_ne_nil f _)]
    rw [caseInsensitiveReplace_eq hf]
  · simp [caseInsensitiveReplace, ciReplaceLoop, findFrom, occursAt, toLower, lowerByte]

theorem C4_ci_replace_no_rematch_witness :
    caseInsensitiveReplace [97, 97, 97, 97] [97, 97] [97, 97, 97] =
      ([97, 97, 97, 97] : Str).take 0 ++ [97, 97, 97] ++
        caseInsensitiveReplace (([97, 97, 97, 97] : Str).drop 2) [97, 97] [97, 97, 97] :=
  (C4_ci_replace_no_rematch [97, 97, 97, 97] [97, 97] [97, 97, 97] (by decide)).1 0 (by
    simp [findFrom, occursAt, toLower, lowerByte])

theorem validateInputMiddleware_error (ctx : ProcessContext) :
    (validateInputMiddleware ctx).Error = ctx.Error := by
  unfold validateInputMiddleware
  split
  · rfl
  · split <;> rfl

theorem detectReplacementsMiddleware_error (ctx : ProcessContext) :
    (detectReplacementsMiddleware ctx).Error = ctx.Error := rfl

theorem applyReplacementsMiddleware_error (ctx : ProcessContext) :
    (applyReplacementsMiddleware ctx).Error = ctx.Error := by
  unfold applyReplacementsMiddleware
  split <;> rfl

theorem validateOutputMiddleware_error (ctx : ProcessContext) :
    (validateOutputMiddleware ctx).Error = ctx.Error := by
  unfold validateOutputMiddleware
  split
  · split <;> rfl
  · rfl

theorem ProcessFile_eq (cfg : Config) (filePath content : Str) (mt : MappingTable) :
    ProcessFile cfg filePath content mt =
      validateOutputMiddleware (applyReplacementsMiddleware (detectReplacementsMiddleware
        (validateInputMiddleware
          { Config := cfg, FilePath := filePath, Content := content, Mappings := mt,
            Result := { Path := filePath, Replacements := [], Modified := false,
                        OriginalSize := content.length, NewSize := 0 },
            Error := none }))) := by
  unfold ProcessFile standardMiddleware
  rw [runPipeline]
  rw [validateInputMiddleware_error]
  dsimp only
  rw [runPipeline]
  rw [detectReplacementsMiddleware_error, validateInputMiddleware_error]
  dsimp only
  rw [runPipeline]
  rw [applyReplacementsMiddleware_error, detectReplacementsMiddleware_error,
    validateInputMiddleware_error]
  dsimp only
  rw [runPipeline]
  rw [validateOutputMiddleware_error, applyReplacementsMiddleware_error,
    detectReplacementsMiddleware_error, validateInputMiddleware_error]
  dsimp only
  rw [runPipeline]

theorem validateInputMiddleware_id (ctx : ProcessContext) (h : ctx.Result.Modified = false) :
    validateInputMiddleware ctx = ctx := by
  obtain ⟨cfg, fp, c, mt, res, err⟩ := ctx
  obtain ⟨p, reps, m, os, ns⟩ := res
  simp only at h
  subst h
  unfold validateInputMiddleware
  split
  · rfl
  · split <;> rfl

theorem ProcessFile_detect (cfg : Config) (filePath content : Str) (mt : MappingTable) :
    ProcessFile cfg filePath content mt =
      validateOutputMiddleware (applyReplacementsMiddleware
        { Config := cfg, FilePath := filePath, Content := content, Mappings := mt,
          Result := { Path := filePath,
                      Replacements := detectLines cfg mt.GetSortedMappings (scanLines content) 1 0,
                      Modified := decide
                        (0 < (detectLines cfg mt.GetSortedMappings (scanLines content) 1 0).length),
                      OriginalSize := content.length, NewSize := 0 },
          Error := none }) := by
  rw [ProcessFile_eq, validateInputMiddleware_id _ rfl]
  rfl

theorem scanLines_nil : scanLines [] = [] := by
  rw [scanLines]
  simp

theorem sortSlice_nil : sortSlice [] = [] := rfl

theorem detectLine_rules_nil (cfg : Config) (n : Nat) (line : Str) (off : Nat) :
    detectLine cfg [] n line off = [] := rfl

theorem detectLines_rules_nil (cfg : Config) :
    ∀ (lines : List Str) (n off : Nat), detectLines cfg [] lines n off = []
  | [], _, _ => rfl
  | line :: rest, n, off => by
    rw [detectLines, detectLine_rules_nil, detectLines_rules_nil cfg rest]
    rfl

/-- C8: whenever the engine's `ProcessFile` runs on empty content or an
empty rule table, the outcome is marked not-modified, no error is
produced (the error field stays empty), and the content comes through
unsubstituted — the situation is handled by marking not-modified, not
by failing. -/
theorem C8_empty_input_marked_not_modified (cfg : Config) (filePath content : Str)
    (ms : List Mapping) (h : content = [] ∨ ms = []) :
    (ProcessFile cfg filePath content (NewMappingTable ms)).Result.Modified = false ∧
    (ProcessFile cfg filePath content (NewMappingTable ms)).Error = none ∧
    (ProcessFile cfg filePath content (NewMappingTable ms)).Content = content := by
  have hR : detectLines cfg (NewMappingTable ms).GetSortedMappings (scanLines content) 1 0 = [] := by
    rcases h with rfl | rfl
    · rw [scanLines_nil]
      rfl
    · rw [show (NewMappingTable ([] : List Mapping)).GetSortedMappings = [] from rfl]
      exact detectLines_rules_nil cfg (scanLines content) 1 0
  rw [ProcessFile_detect, hR]
  unfold applyReplacementsMiddleware validateOutputMiddleware
  simp

theorem C8_empty_input_marked_not_modified_witness :
    (ProcessFile ⟨true, false⟩ [112] [] (NewMappingTable [⟨[97], [98]⟩])).Result.Modified = false ∧
    (ProcessFile ⟨true, false⟩ [112] [] (NewMappingTable [⟨[97], [98]⟩])).Error = none ∧
    (ProcessFile ⟨true, false⟩ [112] [] (NewMappingTable [⟨[97], [98]⟩])).Content = [] :=
  C8_empty_input_marked_not_modified ⟨true, false⟩ [112] [] [⟨[97], [98]⟩] (Or.inl rfl)


theorem detectLine_config (cs d1 d2 : Bool) (rules : List Mapping) (n : Nat)
    (line : Str) (off : Nat) :
    detectLine ⟨cs, d1⟩ rules n line off = detectLine ⟨cs, d2⟩ rules n line off := rfl

theorem detectLines_config (cs d1 d2 : Bool) (rules : List Mapping) :
    ∀ (lines : List Str) (n off : Nat),
      detectLines ⟨cs, d1⟩ rules lines n off = detectLines ⟨cs, d2⟩ rules lines n off
  | [], _, _ => rfl
  | line :: rest, n, off => by
    rw [detectLines, detectLines, detectLine_config cs d1 d2,
      detectLines_config cs d1 d2 rules rest]

theorem detectLine_newText (cfg : Config) (rules : List Mapping) (n : Nat) (line : Str)
    (off : Nat) : ∀ o ∈ detectLine cfg rules n line off, o.NewText = [] := by
  intro o ho
  unfold detectLine at ho
  simp only [List.mem_flatMap, List.mem_map] at ho
  obtain ⟨r, _, i, _, rfl⟩ := ho
  rfl

theorem detectLines_newText (cfg : Config) (rules : List Mapping) :
    ∀ (lines : List Str) (n off : Nat),
      ∀ o ∈ detectLines cfg rules lines n off, o.NewText = []
  | [], _, _ => by intro o ho; cases ho
  | line :: rest, n, off => by
    intro o ho
    rw [detectLines] at ho
    rcases List.mem_append.mp ho with h | h
    · exact detectLine_newText cfg rules n line off o h
    · exact detectLines_newText cfg rules rest (n + 1) (off + line.length + 1) o h

/-- C10, counterexample.  Dry-run and non-dry-run do not agree on
`modified` in every case: with the rule `"a" → ""` on content `"a"`
(case-sensitive), detection fires in both runs, but the non-dry run
applies the rule, produces empty content from non-empty content, and
output validation demotes its outcome to not-modified, while the dry
run keeps `modified = true`.  So the dry run's `modified` does not
reflect detection "exactly as in a non-dry-run". -/
theorem C10_dry_vs_wet_modified_cex :
    (ProcessFile ⟨true, true⟩ [] [97] (NewMappingTable [⟨[97], []⟩])).Result.Modified ≠
      (ProcessFile ⟨true, false⟩ [] [97] (NewMappingTable [⟨[97], []⟩])).Result.Modified := by
  rw [ProcessFile_detect, ProcessFile_detect]
  have hscan : scanLines [97] = [[97]] := by
    rw [scanLines]
    simp [findFrom, occursAt, nl, dropCR, cr]
  have hsorted : (NewMappingTable [⟨[97], []⟩]).GetSortedMappings = [⟨[97], []⟩] := rfl
  have hdet : ∀ d : Bool, detectLines ⟨true, d⟩ [⟨[97], []⟩] [[97]] 1 0 =
      [{ From := [97], To := [], Line := 1, Column := 1, LineText := [97], NewText := [],
         ByteOffset := 0 }] := by
    intro d
    rw [detectLines_config true d false, detectLines, detectLines, detectLine]
    simp only [List.flatMap_cons, List.flatMap_nil, List.append_nil]
    simp [detectPositions, findFrom, occursAt]
  rw [hscan, hsorted, hdet true, hdet false]
  have happly : applyRules ⟨true, false⟩ [⟨[97], []⟩] [97] = [] := by
    rw [applyRules]
    simp only [List.foldl_cons, List.foldl_nil, if_true]
    simp [stringsReplaceAll, replaceAllLoop, findFrom, occursAt]
  unfold applyReplacementsMiddleware validateOutputMiddleware
  simp [hsorted, happly]

theorem applyReplacementsMiddleware_dry (ctx : ProcessContext)
    (h : ctx.Config.DryRun = true) : applyReplacementsMiddleware ctx = ctx := by
  unfold applyReplacementsMiddleware
  rw [h]
  simp

theorem validateOutputMiddleware_dry (ctx : ProcessContext)
    (h : ctx.Config.DryRun = true) : validateOutputMiddleware ctx = ctx := by
  unfold validateOutputMiddleware
  rw [h]
  simp

theorem ProcessFile_dry (cs : Bool) (fp content : Str) (mt : MappingTable) :
    ProcessFile ⟨cs, true⟩ fp content mt =
      { Config := ⟨cs, true⟩, FilePath := fp, Content := content, Mappings := mt,
        Result := { Path := fp,
                    Replacements :=
                      detectLines ⟨cs, true⟩ mt.GetSortedMappings (scanLines content) 1 0,
                    Modified := decide
                      (0 < (detectLines ⟨cs, true⟩ mt.GetSortedMappings
                        (scanLines content) 1 0).length),
                    OriginalSize := content.length, NewSize := 0 },
        Error := none } := by
  rw [ProcessFile_detect, applyReplacementsMiddleware_dry _ rfl, validateOutputMiddleware_dry _ rfl]

theorem ProcessFile_wet_empty (cs : Bool) (fp content : Str) (mt : MappingTable)
    (hR : detectLines ⟨cs, false⟩ mt.GetSortedMappings (scanLines content) 1 0 = []) :
    ProcessFile ⟨cs, false⟩ fp content mt =
      { Config := ⟨cs, false⟩, FilePath := fp, Content := content, Mappings := mt,
        Result := { Path := fp, Replacements := [], Modified := false,
                    OriginalSize := content.length, NewSize := 0 },
        Error := none } := by
  rw [ProcessFile_detect, hR]
  unfold applyReplacementsMiddleware validateOutputMiddleware
  simp

theorem ProcessFile_wet_nonempty (cs : Bool) (fp content : Str) (mt : MappingTable)
    (hR : detectLines ⟨cs, false⟩ mt.GetSortedMappings (scanLines content) 1 0 ≠ []) :
    ProcessFile ⟨cs, false⟩ fp content mt =
      { Config := ⟨cs, false⟩, FilePath := fp,
        Content := applyRules ⟨cs, false⟩ mt.GetSortedMappings content, Mappings := mt,
        Result := { Path := fp,
                    Replacements :=
                      (detectLines ⟨cs, false⟩ mt.GetSortedMappings (scanLines content) 1 0).map
                        fun o =>
                          { o with NewText :=
                              applyRules ⟨cs, false⟩ mt.GetSortedMappings content },
                    Modified :=
                      if (applyRules ⟨cs, false⟩ mt.GetSortedMappings content).length = 0 ∧
                          0 < content.length then false else true,
                    OriginalSize := content.length,
                    NewSize := (applyRules ⟨cs, false⟩ mt.GetSortedMappings content).length },
        Error := none } := by
  rw [ProcessFile_detect]
  have hlen : 0 < (detectLines ⟨cs, false⟩ mt.GetSortedMappings (scanLines content) 1 0).length :=
    List.length_pos.mpr hR
  unfold applyReplacementsMiddleware
  simp only [hlen, decide_eq_true_eq, Bool.not_eq_true]
  rw [if_neg (by simp [hlen])]
  unfold validateOutputMiddleware
  by_cases hd : applyRules ⟨cs, false⟩ mt.GetSortedMappings content = [] ∧
      0 < content.length
  · simp [hd]
  · simp [hd]

/-- C10, amended.  In dry-run mode the apply stage is skipped entirely:
the outcome's `newSize` stays 0, every detected occurrence's `newText`
stays empty, the context content is unchanged, and `modified` together
with the occurrence list reflect detection exactly (`modified` ⇔ some
occurrence was detected).  This agrees with a non-dry-run up to the
apply stage's own effects: the non-dry-run records the same occurrence
list except that each occurrence's `newText` carries the rewritten
content, and its `modified` flag additionally passes output
validation, which demotes it when application emptied non-empty
content.  (The rules are assumed non-empty-`from`; on an empty `from`
the Go detection loop does not terminate.) -/
theorem C10_dry_run_skips_apply (cs : Bool) (fp content : Str) (mt : MappingTable)
    (_hne : ∀ r ∈ mt.GetSortedMappings, r.From ≠ []) :
    (ProcessFile ⟨cs, true⟩ fp content mt).Result.NewSize = 0 ∧
    (∀ o ∈ (ProcessFile ⟨cs, true⟩ fp content mt).Result.Replacements, o.NewText = []) ∧
    (ProcessFile ⟨cs, true⟩ fp content mt).Content = content ∧
    (ProcessFile ⟨cs, true⟩ fp content mt).Result.Replacements =
      detectLines ⟨cs, true⟩ mt.GetSortedMappings (scanLines content) 1 0 ∧
    (ProcessFile ⟨cs, true⟩ fp content mt).Result.Modified =
      decide (0 < (detectLines ⟨cs, true⟩ mt.GetSortedMappings (scanLines content) 1 0).length) ∧
    (ProcessFile ⟨cs, false⟩ fp content mt).Result.Replacements =
      (detectLines ⟨cs, true⟩ mt.GetSortedMappings (scanLines content) 1 0).map
        (fun o => { o with NewText := (ProcessFile ⟨cs, false⟩ fp content mt).Content }) ∧
    (ProcessFile ⟨cs, false⟩ fp content mt).Result.Modified =
      ((ProcessFile ⟨cs, true⟩ fp content mt).Result.Modified &&
        !(decide ((ProcessFile ⟨cs, false⟩ fp content mt).Content = [] ∧ 0 < content.length))) := by
  have hRc : detectLines ⟨cs, false⟩ mt.GetSortedMappings (scanLines content) 1 0 =
      detectLines ⟨cs, true⟩ mt.GetSortedMappings (scanLines content) 1 0 :=
    detectLines_config cs false true mt.GetSortedMappings (scanLines content) 1 0
  by_cases hR : detectLines ⟨cs, true⟩ mt.GetSortedMappings (scanLines content) 1 0 = []
  · rw [ProcessFile_dry, ProcessFile_wet_empty cs fp content mt (by rw [hRc]; exact hR)]
    simp [hR]
  · rw [ProcessFile_dry, ProcessFile_wet_nonempty cs fp content mt (by rw [hRc]; exact hR)]
    have hpos : 0 < (detectLines ⟨cs, true⟩ mt.GetSortedMappings (scanLines content) 1 0).length :=
      List.length_pos.mpr hR
    refine ⟨rfl, ?_, rfl, rfl, rfl, ?_, ?_⟩
    · exact detectLines_newText ⟨cs, true⟩ mt.GetSortedMappings (scanLines content) 1 0
    · rw [hRc]
    · simp only [hpos, decide_eq_true_eq]
      by_cases hd : applyRules ⟨cs, false⟩ mt.GetSortedMappings content = [] ∧
          0 < content.length
      · simp [hd]
      · simp [hd]

theorem C10_dry_run_skips_apply_witness :
    (ProcessFile ⟨true, true⟩ [] [97, 98] (NewMappingTable [⟨[97], [99]⟩])).Result.NewSize = 0 ∧
    (∀ o ∈ (ProcessFile ⟨true, true⟩ [] [97, 98] (NewMappingTable [⟨[97], [99]⟩])).Result.Replacements,
      o.NewText = []) ∧
    (ProcessFile ⟨true, true⟩ [] [97, 98] (NewMappingTable [⟨[97], [99]⟩])).Content = [97, 98] ∧
    (ProcessFile ⟨true, true⟩ [] [97, 98] (NewMappingTable [⟨[97], [99]⟩])).Result.Replacements =
      detectLines ⟨true, true⟩ (NewMappingTable [⟨[97], [99]⟩]).GetSortedMappings
        (scanLines [97, 98]) 1 0 ∧
    (ProcessFile ⟨true, true⟩ [] [97, 98] (NewMappingTable [⟨[97], [99]⟩])).Result.Modified =
      decide (0 < (detectLines ⟨true, true⟩ (NewMappingTable [⟨[97], [99]⟩]).GetSortedMappings
        (scanLines [97, 98]) 1 0).length) ∧
    (ProcessFile ⟨true, false⟩ [] [97, 98] (NewMappingTable [⟨[97], [99]⟩])).Result.Replacements =
      (detectLines ⟨true, true⟩ (NewMappingTable [⟨[97], [99]⟩]).GetSortedMappings
        (scanLines [97, 98]) 1 0).map
        (fun o => { o with
          NewText := (ProcessFile ⟨true, false⟩ [] [97, 98]
            (NewMappingTable [⟨[97], [99]⟩])).Content }) ∧
    (ProcessFile ⟨true, false⟩ [] [97, 98] (NewMappingTable [⟨[97], [99]⟩])).Result.Modified =
      ((ProcessFile ⟨true, true⟩ [] [97, 98] (NewMappingTable [⟨[97], [99]⟩])).Result.Modified &&
        !(decide ((ProcessFile ⟨true, false⟩ [] [97, 98]
            (NewMappingTable [⟨[97], [99]⟩])).Content = [] ∧ 0 < ([97, 98] : Str).length))) :=
  C10_dry_run_skips_apply true [] [97, 98] (NewMappingTable [⟨[97], [99]⟩]) (by decide)

theorem dropCR_prefixOf (l : Str) : dropCR l <+: l := by
  unfold dropCR
  split
  · rw [List.dropLast_eq_take]
    exact List.take_prefix _ l
  · exact List.prefix_refl l

theorem dropCR_subset (l : Str) : ∀ b ∈ dropCR l, b ∈ l :=
  fun _ hb => (dropCR_prefixOf l).subset hb

theorem mem_scanLines_infixOf {s u : Str} (hu : u ∈ scanLines s) : u <:+: s := by
  suffices H : ∀ n s, (s : Str).length ≤ n → ∀ u ∈ scanLines s, u <:+: s from
    H s.length s le_rfl u hu
  intro n
  induction n with
  | zero =>
    intro s hn u hu
    have : s = [] := List.eq_nil_of_length_eq_zero (by omega)
    subst this
    rw [scanLines] at hu
    simp at hu
  | succ n ih =>
    intro s hn u hu
    rw [scanLines] at hu
    by_cases hs : s = []
    · simp [hs] at hu
    · simp only [hs, if_false] at hu
      cases hf : findFrom s [nl] 0 with
      | none =>
        rw [hf] at hu
        simp at hu
        subst hu
        exact (dropCR_prefixOf s).isInfix
      | some i =>
        rw [hf] at hu
        obtain ⟨_, hb, _⟩ := findFrom_some hf
        simp only [List.length_cons, List.length_nil] at hb
        have hi : i < s.length := by omega
        dsimp only at hu
        rw [dif_pos hi] at hu
        rcases List.mem_cons.mp hu with rfl | hmem
        · exact ((dropCR_prefixOf _).trans (List.take_prefix i s)).isInfix
        · have hinf : u <:+: s.drop (i + 1) :=
            ih (s.drop (i + 1)) (by simp [List.length_drop]; omega) u hmem
          exact hinf.trans (List.drop_suffix (i + 1) s).isInfix

theorem mem_of_occursAt {s pat : Str} {j b : Nat} (h : occursAt s pat j) (hb : b ∈ pat) :
    b ∈ s := by
  rw [occursAt_split h]
  simp [hb]

theorem occursAt_of_mem {s : Str} {b : Nat} (h : b ∈ s) :
    ∃ j, occursAt s [b] j ∧ j + 1 ≤ s.length := by
  obtain ⟨u1, u2, rfl⟩ := List.append_of_mem h
  refine ⟨u1.length, ?_, by simp⟩
  unfold occursAt
  rw [List.drop_left]
  rfl

theorem occursAt_of_prefix {u s pat : Str} {j : Nat} (hp : pat ≠ [])
    (h : occursAt u pat j) (hpre : u <+: s) : occursAt s pat j := by
  obtain ⟨v, rfl⟩ := hpre
  have hb := occursAt_length_le hp h
  unfold occursAt at h ⊢
  rw [List.drop_append_of_le_length (by omega)]
  rw [List.take_append_of_le_length (by simp [List.length_drop]; omega)]
  exact h

theorem occursAt_take {s pat : Str} {j m : Nat} (h : occursAt s pat j)
    (hm : j + pat.length ≤ m) : occursAt (s.take m) pat j := by
  unfold occursAt at h ⊢
  rw [List.drop_take]
  rw [List.take_take]
  rw [Nat.min_eq_left (by omega)]
  exact h

theorem mem_scanLines_no_nl {s u : Str} (hu : u ∈ scanLines s) : nl ∉ u := by
  suffices H : ∀ n s, (s : Str).length ≤ n → ∀ u ∈ scanLines s, nl ∉ u from
    H s.length s le_rfl u hu
  intro n
  induction n with
  | zero =>
    intro s hn u hu
    have : s = [] := List.eq_nil_of_length_eq_zero (by omega)
    subst this
    rw [scanLines] at hu
    simp at hu
  | succ n ih =>
    intro s hn u hu
    rw [scanLines] at hu
    by_cases hs : s = []
    · simp [hs] at hu
    · simp only [hs, if_false] at hu
      cases hf : findFrom s [nl] 0 with
      | none =>
        rw [hf] at hu
        simp at hu
        subst hu
        intro hmem
        obtain ⟨j, hocc, hjb⟩ := occursAt_of_mem (dropCR_subset s nl hmem)
        exact findFrom_none hf j (by omega)
          (by simp only [List.length_cons, List.length_nil]; omega) hocc
      | some i =>
        rw [hf] at hu
        obtain ⟨_, hb, _⟩ := findFrom_some hf
        simp only [List.length_cons, List.length_nil] at hb
        have hi : i < s.length := by
          omega
        dsimp only at hu
        rw [dif_pos hi] at hu
        rcases List.mem_cons.mp hu with rfl | hmem
        · intro hmem
          obtain ⟨j, hocc, hjb⟩ := occursAt_of_mem (dropCR_subset _ nl hmem)
          have hji : j < i := by
            have := occursAt_length_le (by simp) hocc
            simp only [List.length_cons, List.length_nil, List.length_take] at this
            omega
          have hocc2 : occursAt s [nl] j :=
            occursAt_of_prefix (by simp) hocc (List.take_prefix i s)
          exact findFrom_least hf j (by omega) hji hocc2
        · exact ih (s.drop (i + 1)) (by simp [List.length_drop]; omega) u hmem

theorem occursAt_dropCR {x pat : Str} (hp : pat ≠ []) (hcr : cr ∉ pat) {j : Nat}
    (h : occursAt x pat j) : occursAt (dropCR x) pat j := by
  by_cases hc : x ≠ [] ∧ x.getLast? = some cr
  · rw [dropCR, if_pos hc, List.dropLast_eq_take]
    apply occursAt_take h
    have hb := occursAt_length_le hp h
    by_contra hgt
    have hEq : j + pat.length = x.length := by omega
    have hsplit := occursAt_split h
    rw [hEq, List.drop_length, List.append_nil] at hsplit
    have hlast : x.getLast? = pat.getLast? := by
      rw [hsplit]
      exact List.getLast?_append_of_ne_nil _ hp
    rw [hc.2] at hlast
    exact hcr (List.mem_of_mem_getLast? hlast.symm)
  · rw [dropCR, if_neg hc]
    exact h

theorem occursIn_mem_scanLines {s pat : Str} (hp : pat ≠ []) (hnl : nl ∉ pat)
    (hcr : cr ∉ pat) (h : occursIn s pat) : ∃ u ∈ scanLines s, occursIn u pat := by
  suffices H : ∀ n s, (s : Str).length ≤ n → occursIn s pat →
      ∃ u ∈ scanLines s, occursIn u pat from H s.length s le_rfl h
  intro n
  induction n with
  | zero =>
    intro s hn hocc
    have hs : s = [] := List.eq_nil_of_length_eq_zero (by omega)
    subst hs
    obtain ⟨j, hj⟩ := hocc
    have := occursAt_length_le hp hj
    have hplen : 0 < pat.length := List.length_pos.mpr hp
    simp only [List.length_nil] at this
    omega
  | succ n ih =>
    intro s hn hocc
    obtain ⟨j, hj⟩ := hocc
    have hjb := occursAt_length_le hp hj
    have hplen : 0 < pat.length := List.length_pos.mpr hp
    have hs : s ≠ [] := by
      intro he
      subst he
      simp only [List.length_nil] at hjb
      omega
    rw [scanLines]
    simp only [hs, if_false]
    cases hf : findFrom s [nl] 0 with
    | none =>
      refine ⟨dropCR s, by simp, j, occursAt_dropCR hp hcr hj⟩
    | some i =>
      obtain ⟨_, hib, hiocc⟩ := findFrom_some hf
      simp only [List.length_cons, List.length_nil] at hib
      have hi : i < s.length := by omega
      dsimp only
      rw [dif_pos hi]
      rcases Nat.lt_or_ge i (j + pat.length) with hover | hafter
      · rcases Nat.lt_or_ge i j with hleft | hmid
        · -- the first newline is strictly before the match: recurse on the tail
          have hocc2 : occursAt (s.drop (i + 1)) pat (j - (i + 1)) := by
            rw [occursAt_drop]
            have he : i + 1 + (j - (i + 1)) = j := by omega
            rw [he]
            exact hj
          obtain ⟨u, hu, hocc3⟩ := ih (s.drop (i + 1))
            (by simp [List.length_drop]; omega) ⟨j - (i + 1), hocc2⟩
          exact ⟨u, List.mem_cons_of_mem _ hu, hocc3⟩
        · -- the newline falls inside the matched region: pat contains nl
          exfalso
          -- s = take j ++ pat ++ rest and the byte at i sits inside pat
          have hsplit := occursAt_split hj
          have hinl : occursAt s [nl] i := hiocc
          -- drop j s = pat ++ rest, and also has nl at position i - j < pat.length
          have hocc2 : occursAt (s.drop j) [nl] (i - j) := by
            rw [occursAt_drop]
            have he : j + (i - j) = i := by omega
            rw [he]
            exact hinl
          -- nl ∈ take pat.length (drop j s) = pat
          have htake : occursAt ((s.drop j).take pat.length) [nl] (i - j) :=
            occursAt_take hocc2 (by simp only [List.length_cons, List.length_nil]; omega)
          have hpat : (s.drop j).take pat.length = pat := hj
          rw [hpat] at htake
          exact hnl (mem_of_occursAt htake (by simp))
      · -- the whole match lies before the newline: it sits in the first line
        refine ⟨dropCR (s.take i), by simp, j, ?_⟩
        exact occursAt_dropCR hp hcr (occursAt_take hj hafter)

theorem detectPositions_eq_nil_iff {line pat : Str} (hp : pat ≠ []) :
    detectPositions line pat 0 = [] ↔ ¬ occursIn line pat := by
  have hplen : 0 < pat.length := List.length_pos.mpr hp
  rw [detectPositions]
  cases hf : findFrom line pat 0 with
  | none =>
    simp only [true_iff]
    intro ⟨j, hj⟩
    exact findFrom_none hf j (by omega) (occursAt_length_le hp hj) hj
  | some i =>
    obtain ⟨_, hib, hiocc⟩ := findFrom_some hf
    dsimp only
    rw [dif_pos ⟨by omega, hib⟩]
    constructor
    · intro h
      exact absurd h (List.cons_ne_nil i _)
    · intro h
      exact absurd ⟨i, hiocc⟩ h

theorem detectLine_eq_nil_iff (cfg : Config) (rules : List Mapping) (n : Nat) (line : Str)
    (off : Nat) :
    detectLine cfg rules n line off = [] ↔
      ∀ r ∈ rules,
        detectPositions (if cfg.CaseSensitive then line else toLower line)
          (if cfg.CaseSensitive then r.From else toLower r.From) 0 = [] := by
  unfold detectLine
  rw [List.flatMap_eq_nil_iff]
  constructor
  · intro h r hr
    have := h r hr
    simp only [List.map_eq_nil_iff] at this
    exact this
  · intro h r hr
    simp only [List.map_eq_nil_iff]
    exact h r hr

theorem detectLines_eq_nil_iff (cfg : Config) (rules : List Mapping) :
    ∀ (lines : List Str) (n off : Nat),
      detectLines cfg rules lines n off = [] ↔
        ∀ line ∈ lines, ∀ r ∈ rules,
          detectPositions (if cfg.CaseSensitive then line else toLower line)
            (if cfg.CaseSensitive then r.From else toLower r.From) 0 = []
  | [], n, off => by simp [detectLines]
  | line :: rest, n, off => by
    rw [detectLines, List.append_eq_nil, detectLine_eq_nil_iff,
      detectLines_eq_nil_iff cfg rules rest (n + 1) (off + line.length + 1)]
    constructor
    · rintro ⟨h1, h2⟩ l hl r hr
      rcases List.mem_cons.mp hl with rfl | hl2
      · exact h1 r hr
      · exact h2 l hl2 r hr
    · intro h
      exact ⟨h line (by simp), fun l hl r hr => h l (List.mem_cons_of_mem _ hl) r hr⟩

theorem foldl_eq_self {α β : Type} (f : α → β → α) (l : List β) (a : α)
    (h : ∀ b ∈ l, f a b = a) : l.foldl f a = a := by
  induction l with
  | nil => rfl
  | cons b bs ih =>
    rw [List.foldl_cons, h b (by simp)]
    exact ih fun x hx => h x (by simp [hx])

theorem not_occursIn_of_findFrom_none {s pat : Str} (hp : pat ≠ [])
    (h : findFrom s pat 0 = none) : ¬ occursIn s pat :=
  fun ⟨j, hj⟩ => findFrom_none h j (by omega) (occursAt_length_le hp hj) hj

theorem mem_detectPositions {line pat : Str} :
    ∀ {start : Nat} {i : Nat}, i ∈ detectPositions line pat start → occursAt line pat i := by
  suffices H : ∀ n start i, line.length + 1 - start ≤ n →
      i ∈ detectPositions line pat start → occursAt line pat i from
    fun {start i} h => H (line.length + 1) start i (by omega) h
  intro n
  induction n with
  | zero =>
    intro start i hn hmem
    rw [detectPositions] at hmem
    cases hf : findFrom line pat start with
    | none => rw [hf] at hmem; simp at hmem
    | some k =>
      obtain ⟨hk0, hkb, _⟩ := findFrom_some hf
      rw [hf] at hmem
      dsimp only at hmem
      have hg : ¬ (start < k + pat.length ∧ k + pat.length ≤ line.length) := by omega
      rw [dif_neg hg] at hmem
      simp at hmem
  | succ n ih =>
    intro start i hn hmem
    rw [detectPositions] at hmem
    cases hf : findFrom line pat start with
    | none => rw [hf] at hmem; simp at hmem
    | some k =>
      obtain ⟨hk0, hkb, hocc⟩ := findFrom_some hf
      rw [hf] at hmem
      dsimp only at hmem
      by_cases hg : start < k + pat.length ∧ k + pat.length ≤ line.length
      · rw [dif_pos hg] at hmem
        rcases List.mem_cons.mp hmem with rfl | hmem2
        · exact hocc
        · exact ih (k + pat.length) i (by omega) hmem2
      · rw [dif_neg hg] at hmem
        simp at hmem

theorem mem_detectLine {cfg : Config} {rules : List Mapping} {n : Nat} {line : Str}
    {off : Nat} {o : Replacement} (ho : o ∈ detectLine cfg rules n line off) :
    ∃ r ∈ rules, ∃ i,
      occursAt (if cfg.CaseSensitive then line else toLower line)
        (if cfg.CaseSensitive then r.From else toLower r.From) i ∧
      o.From = r.From := by
  unfold detectLine at ho
  simp only [List.mem_flatMap, List.mem_map] at ho
  obtain ⟨r, hr, i, hi, rfl⟩ := ho
  exact ⟨r, hr, i, mem_detectPositions hi, rfl⟩

theorem mem_detectLines {cfg : Config} {rules : List Mapping} {o : Replacement} :
    ∀ {lines : List Str} {n off : Nat}, o ∈ detectLines cfg rules lines n off →
      ∃ line ∈ lines, ∃ r ∈ rules, ∃ i,
        occursAt (if cfg.CaseSensitive then line else toLower line)
          (if cfg.CaseSensitive then r.From else toLower r.From) i ∧
        o.From = r.From := by
  intro lines
  induction lines with
  | nil => intro n off h; cases h
  | cons line rest ih =>
    intro n off h
    rw [detectLines] at h
    rcases List.mem_append.mp h with h1 | h2
    · obtain ⟨r, hr, i, hocc, heq⟩ := mem_detectLine h1
      exact ⟨line, by simp, r, hr, i, hocc, heq⟩
    · obtain ⟨l, hl, r, hr, i, hocc, heq⟩ := ih h2
      exact ⟨l, List.mem_cons_of_mem _ hl, r, hr, i, hocc, heq⟩

theorem lowerByte_nl {b : Nat} (h : lowerByte b = nl) : b = nl := by
  unfold lowerByte at h
  unfold nl at h ⊢
  split at h <;> omega

/-- C9: because detection scans strictly line by line, a rule whose
`from` contains a newline byte never produces an occurrence (first
conjunct, in both case modes).  Consequently (second conjunct), for
every file whose content matches the rule set only across line
boundaries — no rule's `from` occurs inside any scanned line, although
some rule would change the content under a whole-content replace —
`ProcessFile` reports zero occurrences and `modified = false`, the
apply stage is skipped, and the content is returned unchanged.
(Rules are taken with non-empty `from`; on an empty `from` the Go
detection loop does not terminate.) -/
theorem C9_newline_rules_never_detected :
    (∀ (cfg : Config) (rules : List Mapping) (content : Str),
      ∀ o ∈ detectLines cfg rules (scanLines content) 1 0, nl ∉ o.From) ∧
    (∀ (d : Bool) (fp content : Str) (mt : MappingTable),
      (∀ r ∈ mt.GetSortedMappings, r.From ≠ []) →
      (∀ line ∈ scanLines content, ∀ r ∈ mt.GetSortedMappings, ¬ occursIn line r.From) →
      (∃ r ∈ mt.GetSortedMappings, stringsReplaceAll content r.From r.To ≠ content) →
      (ProcessFile ⟨true, d⟩ fp content mt).Result.Replacements = [] ∧
      (ProcessFile ⟨true, d⟩ fp content mt).Result.Modified = false ∧
      (ProcessFile ⟨true, d⟩ fp content mt).Content = content) := by
  constructor
  · intro cfg rules content o ho hnlmem
    obtain ⟨line, hline, r, hr, i, hocc, heq⟩ := mem_detectLines ho
    rw [heq] at hnlmem
    have hnl_line : nl ∈ line := by
      by_cases hcs : cfg.CaseSensitive
      · simp only [hcs, if_true] at hocc
        exact mem_of_occursAt hocc hnlmem
      · simp only [hcs, if_false] at hocc
        have h1 : nl ∈ toLower r.From := by
          have : lowerByte nl ∈ toLower r.From := List.mem_map_of_mem lowerByte hnlmem
          simpa using this
        have h2 : nl ∈ toLower line := mem_of_occursAt hocc h1
        obtain ⟨b, hb, hlb⟩ := List.mem_map.mp h2
        rw [lowerByte_nl hlb] at hb
        exact hb
    exact mem_scanLines_no_nl hline hnl_line
  · intro d fp content mt hne hno _
    have hdet : ∀ d' : Bool, detectLines ⟨true, d'⟩ mt.GetSortedMappings
        (scanLines content) 1 0 = [] := by
      intro d'
      rw [detectLines_eq_nil_iff]
      intro line hl r hr
      simp only [if_true]
      rw [detectPositions_eq_nil_iff (hne r hr)]
      exact hno line hl r hr
    cases d with
    | true =>
      rw [ProcessFile_dry, hdet true]
      simp
    | false =>
      rw [ProcessFile_wet_empty true fp content mt (hdet false)]
      simp

theorem C9_newline_rules_never_detected_witness :
    (∀ o ∈ detectLines ⟨true, false⟩ [⟨[98, 10, 99], [120]⟩] (scanLines [97, 98, 10, 99]) 1 0,
      nl ∉ o.From) ∧
    ((ProcessFile ⟨true, false⟩ [] [97, 98, 10, 99]
        (NewMappingTable [⟨[98, 10, 99], [120]⟩])).Result.Replacements = [] ∧
      (ProcessFile ⟨true, false⟩ [] [97, 98, 10, 99]
        (NewMappingTable [⟨[98, 10, 99], [120]⟩])).Result.Modified = false ∧
      (ProcessFile ⟨true, false⟩ [] [97, 98, 10, 99]
        (NewMappingTable [⟨[98, 10, 99], [120]⟩])).Content = [97, 98, 10, 99]) := by
  have hsorted : (NewMappingTable [⟨[98, 10, 99], [120]⟩]).GetSortedMappings =
      [⟨[98, 10, 99], [120]⟩] := rfl
  have hscan : scanLines [97, 98, 10, 99] = [[97, 98], [99]] := by
    rw [scanLines]
    have h1 : findFrom [97, 98, 10, 99] [nl] 0 = some 2 := by
      simp [findFrom, occursAt, nl]
    rw [h1]
    norm_num
    have h3 : scanLines [99] = [[99]] := by
      rw [scanLines]
      have h4 : findFrom [99] [nl] 0 = none := by
        simp [findFrom, occursAt, nl]
      rw [h4]
      simp [dropCR, cr]
    rw [if_neg (by decide), h3]
    simp [dropCR, cr]
  refine ⟨C9_newline_rules_never_detected.1 ⟨true, false⟩ [⟨[98, 10, 99], [120]⟩] [97, 98, 10, 99],
    C9_newline_rules_never_detected.2 false [] [97, 98, 10, 99]
      (NewMappingTable [⟨[98, 10, 99], [120]⟩]) (by decide) ?_ ?_⟩
  · rw [hscan, hsorted]
    intro line hl r hr
    rcases List.mem_singleton.mp hr with rfl
    apply not_occursIn_of_findFrom_none (by decide)
    rcases List.mem_cons.mp hl with rfl | hl2
    · simp [findFrom, occursAt]
    · rcases List.mem_singleton.mp hl2 with rfl
      simp [findFrom, occursAt]
  · rw [hsorted]
    refine ⟨⟨[98, 10, 99], [120]⟩, by simp, ?_⟩
    have hra : stringsReplaceAll [97, 98, 10, 99] [98, 10, 99] [120] = [97, 120] := by
      rw [stringsReplaceAll, if_neg (by decide), replaceAllLoop]
      have h1 : findFrom [97, 98, 10, 99] [98, 10, 99] 0 = some 1 := by
        simp [findFrom, occursAt]
      rw [h1]
      dsimp only
      rw [dif_pos (by norm_num)]
      rw [replaceAllLoop]
      norm_num
      have h2 : findFrom [97, 98, 10, 99] [98, 10, 99] 4 = none := by
        simp [findFrom]
      rw [h2]
    rw [hra]
    decide

theorem mget_cons_succ (a : Mapping) (l : List Mapping) (n : Nat) :
    mget (a :: l) (n + 1) = mget l n := by
  simp [mget]

theorem mget_append_add (Q R : List Mapping) (n : Nat) :
    mget (Q ++ R) (Q.length + n) = mget R n := by
  induction Q with
  | nil => simp [mget]
  | cons a Q ih =>
    have h : (a :: Q).length + n = (Q.length + n) + 1 := by simp; omega
    rw [h, List.cons_append, mget_cons_succ]
    exact ih

theorem set_append_add (Q R : List Mapping) (n : Nat) (y : Mapping) :
    (Q ++ R).set (Q.length + n) y = Q ++ R.set n y := by
  induction Q with
  | nil => simp
  | cons a Q ih =>
    have h : (a :: Q).length + n = (Q.length + n) + 1 := by simp; omega
    rw [h, List.cons_append, List.set_cons_succ, ih, List.cons_append]

theorem lswap_adj (Q S : List Mapping) (c x : Mapping) :
    lswap (Q ++ c :: x :: S) (Q.length + 1) Q.length = Q ++ x :: c :: S := by
  have h1 : mget (Q ++ c :: x :: S) Q.length = c := by
    simpa using mget_append_add Q (c :: x :: S) 0
  have h2 : mget (Q ++ c :: x :: S) (Q.length + 1) = x := by
    simpa [mget] using mget_append_add Q (c :: x :: S) 1
  unfold lswap
  rw [h1, h2]
  have e1 : (Q ++ c :: x :: S).set (Q.length + 1) c = Q ++ c :: c :: S :=
    set_append_add Q (c :: x :: S) 1 c
  rw [e1]
  exact set_append_add Q (c :: c :: S) 0 x

theorem insertionSortInner_eq (x : Mapping) (P : List Mapping) :
    ∀ S : List Mapping, insertionSortInner 0 (P ++ x :: S) P.length
      = (List.orderedInsert lenLE x P.reverse).reverse ++ S := by
  induction P using List.reverseRecOn with
  | nil => intro S; simp [insertionSortInner, List.orderedInsert]
  | append_singleton Q c ih =>
    intro S
    have hl : (Q ++ [c]) ++ x :: S = Q ++ c :: x :: S := by simp
    have hlen : (Q ++ [c]).length = Q.length + 1 := by simp
    rw [hl, hlen, insertionSortInner]
    have hm1 : mget (Q ++ c :: x :: S) Q.length = c := by
      simpa using mget_append_add Q (c :: x :: S) 0
    have hm2 : mget (Q ++ c :: x :: S) (Q.length + 1) = x := by
      simpa [mget] using mget_append_add Q (c :: x :: S) 1
    have hrev : (Q ++ [c]).reverse = c :: Q.reverse := by simp
    by_cases hc : c.From.length < x.From.length
    · rw [if_pos ⟨Nat.succ_pos _, by unfold lessAt; rw [hm1, hm2]; exact hc⟩]
      rw [lswap_adj, ih (c :: S), hrev, List.orderedInsert,
        if_neg (by unfold lenLE; omega)]
      simp
    · rw [if_neg (fun h => hc (by
        have h2 := h.2
        unfold lessAt at h2
        rw [hm1, hm2] at h2
        exact h2))]
      rw [hrev, List.orderedInsert, if_pos (by unfold lenLE; omega)]
      simp

theorem insertionSortLoop_eq :
    ∀ (S P : List Mapping), insertionSortLoop 0 (P ++ S) P.length S.length
      = (S.foldl (fun r x => List.orderedInsert lenLE x r) P.reverse).reverse := by
  intro S
  induction S with
  | nil => intro P; simp [insertionSortLoop]
  | cons x S2 ih =>
    intro P
    show insertionSortLoop 0 (P ++ x :: S2) P.length (S2.length + 1) = _
    rw [insertionSortLoop, insertionSortInner_eq x P S2]
    have hL : ((List.orderedInsert lenLE x P.reverse).reverse).length = P.length + 1 := by
      simp [List.orderedInsert_length]
    rw [← hL, ih ((List.orderedInsert lenLE x P.reverse).reverse)]
    simp

theorem insertionSortGo_eq (l : List Mapping) :
    insertionSortGo l 0 l.length = stableSortView l := by
  cases l with
  | nil => rfl
  | cons y rest =>
    have h : insertionSortGo (y :: rest) 0 (y :: rest).length
        = insertionSortLoop 0 ([y] ++ rest) ([y] : List Mapping).length rest.length := by
      unfold insertionSortGo
      norm_num
    rw [h, insertionSortLoop_eq rest [y]]
    unfold stableSortView stableSortRev
    simp [List.orderedInsert]

theorem sortSlice_small (l : List Mapping) (h : l.length ≤ 12) :
    sortSlice l = stableSortView l := by
  rw [sortSlice, show 4 * l.length + 16 = (4 * l.length + 15) + 1 from rfl, pdqsortFuel]
  rw [if_pos (by simpa using h)]
  exact insertionSortGo_eq l

theorem filter_orderedInsert (k : Nat) (x : Mapping) (rl : List Mapping) :
    (List.orderedInsert lenLE x rl).filter (fun m => decide (m.From.length = k))
      = if x.From.length = k then x :: rl.filter (fun m => decide (m.From.length = k))
        else rl.filter (fun m => decide (m.From.length = k)) := by
  induction rl with
  | nil =>
    by_cases hx : x.From.length = k <;> simp [List.orderedInsert, hx]
  | cons b rest ih =>
    rw [List.orderedInsert]
    by_cases hr : lenLE x b
    · rw [if_pos hr]
      by_cases hx : x.From.length = k <;> simp [hx]
    · rw [if_neg hr]
      have hb : b.From.length < x.From.length := by unfold lenLE at hr; omega
      by_cases hx : x.From.length = k
      · have hbk : ¬ (b.From.length = k) := by omega
        simp [List.filter_cons, hbk, ih, hx]
      · simp [List.filter_cons, ih, hx]

theorem stableSortRev_concat (l : List Mapping) (x : Mapping) :
    stableSortRev (l ++ [x]) = List.orderedInsert lenLE x (stableSortRev l) := by
  simp [stableSortRev]

theorem stableSortRev_perm (l : List Mapping) : (stableSortRev l).Perm l := by
  induction l using List.reverseRecOn with
  | nil => simp [stableSortRev]
  | append_singleton Q x ih =>
    rw [stableSortRev_concat]
    exact ((List.perm_orderedInsert lenLE x (stableSortRev Q)).trans (ih.cons x)).trans
      (List.perm_append_singleton x Q).symm

theorem stableSortRev_sorted (l : List Mapping) : List.Sorted lenLE (stableSortRev l) := by
  induction l using List.reverseRecOn with
  | nil => simp [stableSortRev]
  | append_singleton Q x ih =>
    rw [stableSortRev_concat]
    exact List.Sorted.orderedInsert x (stableSortRev Q) ih

theorem filter_stableSortRev (k : Nat) (l : List Mapping) :
    (stableSortRev l).filter (fun m => decide (m.From.length = k))
      = (l.filter (fun m => decide (m.From.length = k))).reverse := by
  induction l using List.reverseRecOn with
  | nil => simp [stableSortRev]
  | append_singleton Q x ih =>
    rw [stableSortRev_concat, filter_orderedInsert]
    by_cases hx : x.From.length = k
    · rw [if_pos hx, ih]
      simp [List.filter_append, hx]
    · rw [if_neg hx, ih]
      simp [List.filter_append, hx]

/-- Counterexample to C2's stability conjunct.  On this 13-rule table
Go's `sort.Slice` (an unstable pattern-defeating quicksort; the code
does not use `sort.SliceStable`) reorders the equal-length rules: the
length-1 rules of the sorted view no longer appear in their original
insertion order.  (13 is the smallest size at which `pdqsort` leaves
the always-stable insertion-sort path.) -/
theorem C2_sorted_view_not_stable_cex :
    ¬ (((NewMappingTable [⟨[97, 97], [65]⟩, ⟨[97], [1]⟩, ⟨[97, 98], [66]⟩, ⟨[97], [3]⟩,
          ⟨[97], [4]⟩, ⟨[97], [5]⟩, ⟨[97], [6]⟩, ⟨[97], [7]⟩, ⟨[97], [8]⟩, ⟨[97], [9]⟩,
          ⟨[97, 99], [67]⟩, ⟨[97], [11]⟩, ⟨[97], [12]⟩]).GetSortedMappings).filter
        (fun m => decide (m.From.length = 1))
      = ([⟨[97, 97], [65]⟩, ⟨[97], [1]⟩, ⟨[97, 98], [66]⟩, ⟨[97], [3]⟩,
          ⟨[97], [4]⟩, ⟨[97], [5]⟩, ⟨[97], [6]⟩, ⟨[97], [7]⟩, ⟨[97], [8]⟩, ⟨[97], [9]⟩,
          ⟨[97, 99], [67]⟩, ⟨[97], [11]⟩, ⟨[97], [12]⟩] : List Mapping).filter
        (fun m => decide (m.From.length = 1))) := by decide

/-- C2 (amended): for rule lists of at most 12 rules — where Go's
`sort.Slice` pdqsort reduces to its (stable) insertion-sort base case —
the table's sorted view is a permutation of the input list, the
`From`-lengths are non-increasing, and for every length `k` the rules
of `From`-length `k` appear exactly in their original insertion order.
For 13 or more rules the sort can reorder
equal-length rules (`C2_sorted_view_not_stable_cex`); this theorem
asserts nothing about larger tables. -/
theorem C2_sorted_view_stable_small (l : List Mapping) (h : l.length ≤ 12) :
    ((NewMappingTable l).GetSortedMappings).Perm l ∧
    List.Pairwise (fun x y => y.From.length ≤ x.From.length)
      ((NewMappingTable l).GetSortedMappings) ∧
    ∀ k : Nat, ((NewMappingTable l).GetSortedMappings).filter
        (fun m => decide (m.From.length = k))
      = l.filter (fun m => decide (m.From.length = k)) := by
  have hs : (NewMappingTable l).GetSortedMappings = stableSortView l := sortSlice_small l h
  rw [hs]
  refine ⟨?_, ?_, ?_⟩
  · unfold stableSortView
    exact (List.reverse_perm (stableSortRev l)).trans (stableSortRev_perm l)
  · unfold stableSortView
    exact List.pairwise_reverse.mpr (stableSortRev_sorted l)
  · intro k
    unfold stableSortView
    rw [List.filter_reverse, filter_stableSortRev]
    simp

theorem C2_sorted_view_stable_small_witness :
    ((NewMappingTable [⟨[97, 97], [65]⟩, ⟨[97], [1]⟩, ⟨[97, 98], [66]⟩]).GetSortedMappings).Perm
        [⟨[97, 97], [65]⟩, ⟨[97], [1]⟩, ⟨[97, 98], [66]⟩] ∧
    List.Pairwise (fun x y => y.From.length ≤ x.From.length)
      ((NewMappingTable [⟨[97, 97], [65]⟩, ⟨[97], [1]⟩, ⟨[97, 98], [66]⟩]).GetSortedMappings) ∧
    ((NewMappingTable [⟨[97, 97], [65]⟩, ⟨[97], [1]⟩, ⟨[97, 98], [66]⟩]).GetSortedMappings).filter
        (fun m => decide (m.From.length = 1))
      = ([⟨[97, 97], [65]⟩, ⟨[97], [1]⟩, ⟨[97, 98], [66]⟩] : List Mapping).filter
        (fun m => decide (m.From.length = 1)) :=
  ⟨(C2_sorted_view_stable_small [⟨[97, 97], [65]⟩, ⟨[97], [1]⟩, ⟨[97, 98], [66]⟩] (by decide)).1,
   (C2_sorted_view_stable_small [⟨[97, 97], [65]⟩, ⟨[97], [1]⟩, ⟨[97, 98], [66]⟩] (by decide)).2.1,
   (C2_sorted_view_stable_small [⟨[97, 97], [65]⟩, ⟨[97], [1]⟩, ⟨[97, 98], [66]⟩] (by decide)).2.2 1⟩

theorem any_filePath_iff (acc : List LogEntry) (p : Str) :
    (acc.any fun e => decide (e.FilePath = p)) = true ↔ p ∈ acc.map (fun e => e.FilePath) := by
  simp [List.any_eq_true, List.mem_map]

theorem groupStep_filePath (acc : List LogEntry) (row : Str × Str × Str) :
    (groupStep acc row).map (fun e => e.FilePath)
      = if row.1 ∈ acc.map (fun e => e.FilePath) then acc.map (fun e => e.FilePath)
        else acc.map (fun e => e.FilePath) ++ [row.1] := by
  unfold groupStep
  by_cases hmem : row.1 ∈ acc.map (fun e => e.FilePath)
  · rw [if_pos ((any_filePath_iff acc row.1).mpr hmem), if_pos hmem, List.map_map]
    apply List.map_congr_left
    intro e _
    by_cases he : e.FilePath = row.1 <;> simp [he]
  · rw [if_neg (fun h => hmem ((any_filePath_iff acc row.1).mp h)), if_neg hmem]
    simp

theorem groupRows_concat (rows : List (Str × Str × Str)) (row : Str × Str × Str) :
    groupRows (rows ++ [row]) = groupStep (groupRows rows) row := by
  simp [groupRows, List.foldl_append]

theorem groupRows_mem_filePath (rows : List (Str × Str × Str)) :
    ∀ p, p ∈ (groupRows rows).map (fun e => e.FilePath) ↔ p ∈ rows.map (fun r => r.1) := by
  induction rows using List.reverseRecOn with
  | nil => intro p; simp [groupRows]
  | append_singleton Q row ih =>
    intro p
    rw [groupRows_concat, groupStep_filePath]
    by_cases hmem : row.1 ∈ (groupRows Q).map (fun e => e.FilePath)
    · rw [if_pos hmem]
      simp only [List.map_append, List.mem_append, List.map_cons, List.map_nil,
        List.mem_singleton]
      constructor
      · intro h; exact Or.inl ((ih p).mp h)
      · rintro (h | rfl)
        · exact (ih p).mpr h
        · exact hmem
    · rw [if_neg hmem]
      simp only [List.mem_append, List.map_append, List.map_cons, List.map_nil,
        List.mem_singleton]
      constructor
      · rintro (h | h)
        · exact Or.inl ((ih p).mp h)
        · exact Or.inr h
      · rintro (h | h)
        · exact Or.inl ((ih p).mpr h)
        · exact Or.inr h

theorem groupRows_filePath_nodup (rows : List (Str × Str × Str)) :
    ((groupRows rows).map (fun e => e.FilePath)).Nodup := by
  induction rows using List.reverseRecOn with
  | nil => simp [groupRows]
  | append_singleton Q row ih =>
    rw [groupRows_concat, groupStep_filePath]
    by_cases hmem : row.1 ∈ (groupRows Q).map (fun e => e.FilePath)
    · rw [if_pos hmem]; exact ih
    · rw [if_neg hmem]
      refine List.Nodup.append ih (List.nodup_singleton _) ?_
      intro a ha hb
      rcases List.mem_singleton.mp hb with rfl
      exact hmem ha

theorem groupRows_modified (rows : List (Str × Str × Str)) :
    ∀ e ∈ groupRows rows, e.Modified = true := by
  induction rows using List.reverseRecOn with
  | nil => intro e he; simp [groupRows] at he
  | append_singleton Q row ih =>
    intro e he
    rw [groupRows_concat] at he
    unfold groupStep at he
    by_cases hc : ((groupRows Q).any fun x => decide (x.FilePath = row.1)) = true
    · rw [if_pos hc] at he
      obtain ⟨e0, he0, rfl⟩ := List.mem_map.mp he
      by_cases hp : e0.FilePath = row.1 <;> simp [hp, ih e0 he0]
    · rw [if_neg hc] at he
      rcases List.mem_append.mp he with h | h
      · exact ih e h
      · rw [List.mem_singleton.mp h]

theorem groupRows_replacements (rows : List (Str × Str × Str)) :
    ∀ e ∈ groupRows rows,
      e.Replacements = (rows.filter fun r => decide (r.1 = e.FilePath)).map
        (fun r => { From := r.2.1, To := r.2.2, Line := 0, Column := 0,
                    LineText := [], NewText := [], ByteOffset := 0 }) := by
  induction rows using List.reverseRecOn with
  | nil => intro e he; simp [groupRows] at he
  | append_singleton Q row ih =>
    intro e he
    rw [groupRows_concat] at he
    unfold groupStep at he
    by_cases hc : ((groupRows Q).any fun x => decide (x.FilePath = row.1)) = true
    · rw [if_pos hc] at he
      obtain ⟨e0, he0, rfl⟩ := List.mem_map.mp he
      by_cases hp : e0.FilePath = row.1
      · simp only [if_pos hp]
        rw [List.filter_append]
        have hrow : (([row] : List (Str × Str × Str)).filter
            fun r => decide (r.1 = e0.FilePath)) = [row] := by
          simp [List.filter, hp.symm]
        rw [hrow, List.map_append, ← ih e0 he0]
        simp
      · simp only [if_neg hp]
        rw [List.filter_append]
        have hrow : (([row] : List (Str × Str × Str)).filter
            fun r => decide (r.1 = e0.FilePath)) = [] := by
          rw [List.filter_eq_nil_iff]
          intro r hr hd
          rcases List.mem_singleton.mp hr with rfl
          exact hp (of_decide_eq_true hd).symm
        rw [hrow, List.append_nil]
        exact ih e0 he0
    · rw [if_neg hc] at he
      rcases List.mem_append.mp he with h | h
      · have hne : row.1 ≠ e.FilePath := by
          intro hEq
          apply hc
          apply (any_filePath_iff (groupRows Q) row.1).mpr
          rw [hEq]
          exact List.mem_map.mpr ⟨e, h, rfl⟩
        rw [List.filter_append]
        have hrow : (([row] : List (Str × Str × Str)).filter
            fun r => decide (r.1 = e.FilePath)) = [] := by
          rw [List.filter_eq_nil_iff]
          intro r hr hd
          rcases List.mem_singleton.mp hr with rfl
          exact hne (of_decide_eq_true hd)
        rw [hrow, List.append_nil]
        exact ih e h
      · rw [List.mem_singleton.mp h]
        have hnotin : row.1 ∉ Q.map (fun r => r.1) := by
          intro hmem
          exact hc ((any_filePath_iff (groupRows Q) row.1).mpr
            ((groupRows_mem_filePath Q row.1).mpr hmem))
        have hfilt : (Q.filter fun r => decide (r.1 = row.1)) = [] := by
          rw [List.filter_eq_nil_iff]
          intro r hr hd
          exact hnotin (List.mem_map.mpr ⟨r, hr, of_decide_eq_true hd⟩)
        show _ = ((Q ++ [row]).filter fun r => decide (r.1 = row.1)).map _
        rw [List.filter_append, hfilt]
        simp [List.filter]

/-- C7: the CSV grouping loop produces one `LogEntry` per distinct file
path (the paths of the result are exactly the paths of the rows, with
no duplicates), every produced entry has `Modified = true`, and each
entry carries one replacement per row of its path, in row order.  The
final conjunct checks `parseCSVLog` end to end on a concrete log: a
header row, two data rows for `f1` and one for `f2`, with a blank
line, a `#` comment line and a two-field malformed row interleaved —
the header, blank, comment and malformed lines are all skipped and
exactly two entries come back. -/
theorem C7_csv_grouping :
    (∀ rows : List (Str × Str × Str),
      ((groupRows rows).map (fun e => e.FilePath)).Nodup ∧
      (∀ p, p ∈ (groupRows rows).map (fun e => e.FilePath) ↔ p ∈ rows.map (fun r => r.1)) ∧
      (∀ e ∈ groupRows rows, e.Modified = true ∧
        e.Replacements = (rows.filter fun r => decide (r.1 = e.FilePath)).map
          (fun r => { From := r.2.1, To := r.2.2, Line := 0, Column := 0,
                      LineText := [], NewText := [], ByteOffset := 0 }))) ∧
    parseCSVLog [104, 44, 104, 44, 104, 44, 104, 44, 104, 10,
        102, 49, 44, 97, 44, 98, 44, 48, 44, 48, 10,
        10,
        35, 120, 10,
        102, 49, 44, 99, 44, 100, 44, 48, 44, 48, 10,
        102, 49, 44, 101, 10,
        102, 50, 44, 101, 44, 102, 44, 48, 44, 48]
      = .ok [⟨[], [102, 49], 0, 0, true,
               [⟨[97], [98], 0, 0, [], [], 0⟩, ⟨[99], [100], 0, 0, [], [], 0⟩], [], []⟩,
             ⟨[], [102, 50], 0, 0, true, [⟨[101], [102], 0, 0, [], [], 0⟩], [], []⟩] := by
  refine ⟨fun rows => ⟨groupRows_filePath_nodup rows, groupRows_mem_filePath rows,
    fun e he => ⟨groupRows_modified rows e he, groupRows_replacements rows e he⟩⟩, ?_⟩
  rfl

theorem revertLoop_filter (fs : FileSys) (entries : List LogEntry) :
    revertLoop fs entries
      = revertLoop fs (entries.filter fun e => e.Modified && decide (e.Error = [])) := by
  induction entries generalizing fs with
  | nil => rfl
  | cons e rest ih =>
    by_cases hm : e.Modified = true
    · by_cases he : e.Error = []
      · have hf : (e :: rest).filter (fun e => e.Modified && decide (e.Error = []))
            = e :: rest.filter (fun e => e.Modified && decide (e.Error = [])) := by
          simp [List.filter_cons, hm, he]
        rw [hf, revertLoop, if_neg (by simp [hm, he]), revertLoop, if_neg (by simp [hm, he])]
        cases hrev : revertEntry fs e with
        | error err => simp only [hrev]; rw [ih fs]
        | ok fs2 => simp only [hrev]; rw [ih fs2]
      · have hf : (e :: rest).filter (fun e => e.Modified && decide (e.Error = []))
            = rest.filter (fun e => e.Modified && decide (e.Error = [])) := by
          simp [List.filter_cons, hm, he]
        rw [hf, revertLoop, if_pos (by simp [hm, he])]
        exact ih fs
    · have hf : (e :: rest).filter (fun e => e.Modified && decide (e.Error = []))
          = rest.filter (fun e => e.Modified && decide (e.Error = [])) := by
        simp [List.filter_cons, hm]
      rw [hf, revertLoop, if_pos (by simp [hm])]
      exact ih fs

theorem revertLoop_counts (fs : FileSys) (entries : List LogEntry) :
    (revertLoop fs entries).2.1 + (revertLoop fs entries).2.2.length
      = (entries.filter fun e => e.Modified && decide (e.Error = [])).length := by
  induction entries generalizing fs with
  | nil => rfl
  | cons e rest ih =>
    by_cases hm : e.Modified = true
    · by_cases he : e.Error = []
      · have hf : (e :: rest).filter (fun e => e.Modified && decide (e.Error = []))
            = e :: rest.filter (fun e => e.Modified && decide (e.Error = [])) := by
          simp [List.filter_cons, hm, he]
        rw [hf, revertLoop, if_neg (by simp [hm, he])]
        cases hrev : revertEntry fs e with
        | error err =>
          simp only [hrev, List.length_cons]
          have := ih fs
          omega
        | ok fs2 =>
          simp only [hrev, List.length_cons]
          have := ih fs2
          omega
      · have hf : (e :: rest).filter (fun e => e.Modified && decide (e.Error = []))
            = rest.filter (fun e => e.Modified && decide (e.Error = [])) := by
          simp [List.filter_cons, hm, he]
        rw [hf, revertLoop, if_pos (by simp [hm, he])]
        exact ih fs
    · have hf : (e :: rest).filter (fun e => e.Modified && decide (e.Error = []))
          = rest.filter (fun e => e.Modified && decide (e.Error = [])) := by
        simp [List.filter_cons, hm]
      rw [hf, revertLoop, if_pos (by simp [hm])]
      exact ih fs

theorem RevertFromEntries_eq (fs : FileSys) (entries : List LogEntry) :
    (RevertFromEntries fs entries).1 = (revertLoop fs entries).1 ∧
    (RevertFromEntries fs entries).2
      = ((revertLoop fs entries).2.2.head?).map
          (fun e => { reverted := (revertLoop fs entries).2.1,
                      failed := (revertLoop fs entries).2.2.length, first := e }) := by
  unfold RevertFromEntries
  rcases hr : revertLoop fs entries with ⟨fs1, cnt, errs⟩
  cases errs <;> simp

/-- C6: the revert loop processes exactly the entries with
`Modified = true` and an empty error field (filtering out the others
does not change the outcome); per entry it restores from the backup
when one is recorded and otherwise applies the reverse replacements; a
failing entry never stops the loop — every eligible entry is attempted,
successes plus recorded failures always totalling the eligible count —
and the overall call errors exactly when some entry failed, reporting
the success count and wrapping the first error encountered. -/
theorem C6_revert_best_effort :
    (∀ (fs : FileSys) (entries : List LogEntry),
      revertLoop fs entries
        = revertLoop fs (entries.filter fun e => e.Modified && decide (e.Error = []))) ∧
    (∀ (fs : FileSys) (e : LogEntry),
      revertEntry fs e = if e.BackupPath ≠ [] then restoreFromBackup fs e.FilePath e.BackupPath
        else reverseReplacements fs e) ∧
    (∀ (fs : FileSys) (entries : List LogEntry),
      (revertLoop fs entries).2.1 + (revertLoop fs entries).2.2.length
        = (entries.filter fun e => e.Modified && decide (e.Error = [])).length) ∧
    (∀ (fs : FileSys) (entries : List LogEntry),
      (RevertFromEntries fs entries).1 = (revertLoop fs entries).1 ∧
      (RevertFromEntries fs entries).2
        = ((revertLoop fs entries).2.2.head?).map
            (fun e => { reverted := (revertLoop fs entries).2.1,
                        failed := (revertLoop fs entries).2.2.length, first := e })) :=
  ⟨revertLoop_filter, fun _ _ => rfl, revertLoop_counts, RevertFromEntries_eq⟩

theorem flatMap_fixed {f : Nat → Str} : ∀ {u : Str}, (∀ b ∈ u, f b = [b]) → u.flatMap f = u := by
  intro u
  induction u with
  | nil => intro _; rfl
  | cons a t ih =>
    intro h
    rw [List.flatMap_cons, h a (List.mem_cons_self a t), ih fun b hb => h b (List.mem_cons_of_mem a hb)]
    rfl

theorem flatMap_congr {f g : Nat → Str} : ∀ {u : Str}, (∀ b ∈ u, f b = g b) →
    u.flatMap f = u.flatMap g := by
  intro u
  induction u with
  | nil => intro _; rfl
  | cons a t ih =>
    intro h
    rw [List.flatMap_cons, List.flatMap_cons, h a (List.mem_cons_self a t),
      ih fun b hb => h b (List.mem_cons_of_mem a hb)]

theorem replaceAllLoop_single (x : Nat) (t : Str) :
    ∀ (s : Str) (start : Nat), start ≤ s.length →
      replaceAllLoop s [x] t start
        = (s.drop start).flatMap (fun b => if b = x then t else [b]) := by
  suffices H : ∀ n s start, (s : Str).length + 1 - start ≤ n → start ≤ s.length →
      replaceAllLoop s [x] t start
        = (s.drop start).flatMap (fun b => if b = x then t else [b]) from
    fun s start hs => H (s.length + 1) s start (by omega) hs
  intro n
  induction n with
  | zero => intro s start hn hs; omega
  | succ n ih =>
    intro s start hn hs
    rw [replaceAllLoop]
    cases hf : findFrom s [x] start with
    | none =>
      simp only
      refine (flatMap_fixed ?_).symm
      intro b hb
      rw [if_neg]
      rintro rfl
      obtain ⟨j, hj, hjb⟩ := occursAt_of_mem hb
      have hjs : (s.drop start).length = s.length - start := List.length_drop start s
      exact findFrom_none hf (start + j) (by omega)
        (by simp only [List.length_cons, List.length_nil]; omega)
        (occursAt_drop.mp hj)
    | some i =>
      obtain ⟨hi0, hib, hocc⟩ := findFrom_some hf
      simp only [List.length_cons, List.length_nil] at hib
      dsimp only
      rw [dif_pos ⟨by simp only [List.length_cons, List.length_nil]; omega,
        by simp only [List.length_cons, List.length_nil]; omega⟩]
      simp only [List.length_cons, List.length_nil]
      rw [ih s (i + 1) (by omega) (by omega)]
      have hsplit := occursAt_split hocc
      simp only [List.length_cons, List.length_nil] at hsplit
      have hdec : s.drop start = (s.take i).drop start ++ [x] ++ s.drop (i + 1) := by
        conv in s.drop start => rw [hsplit]
        rw [List.append_assoc, List.drop_append_of_le_length (by simp; omega),
          List.append_assoc]
      rw [hdec, List.flatMap_append, List.flatMap_append]
      have hseg : ((s.take i).drop start).flatMap (fun b => if b = x then t else [b])
          = (s.take i).drop start := by
        refine flatMap_fixed ?_
        intro b hb
        rw [if_neg]
        intro heq
        rw [heq] at hb
        obtain ⟨j, hj, hjb⟩ := occursAt_of_mem hb
        have hjlen : ((s.take i).drop start).length = i - start := by
          simp [List.length_drop, List.length_take]
          omega
        rw [hjlen] at hjb
        have h1 : occursAt (s.take i) [x] (start + j) := occursAt_drop.mp hj
        have h2 : occursAt s [x] (start + j) :=
          occursAt_of_prefix (by simp) h1 (List.take_prefix i s)
        exact findFrom_least hf (start + j) (by omega) (by omega) h2
      rw [hseg]
      simp

theorem stringsReplaceAll_single (s : Str) (x : Nat) (t : Str) :
    stringsReplaceAll s [x] t = s.flatMap (fun b => if b = x then t else [b]) := by
  rw [stringsReplaceAll, if_neg (by simp), replaceAllLoop_single x t s 0 (by omega),
    List.drop_zero]

theorem flatMap_joinWith (σ : Nat → Str) (t : Str) :
    ∀ gs : List Str, (joinWith t gs).flatMap σ
      = joinWith (t.flatMap σ) (gs.map (fun u => u.flatMap σ)) := by
  intro gs
  induction gs with
  | nil => rfl
  | cons u rest ih =>
    cases rest with
    | nil => rfl
    | cons v vs =>
      show (u ++ t ++ joinWith t (v :: vs)).flatMap σ
        = u.flatMap σ ++ t.flatMap σ
            ++ joinWith (t.flatMap σ) ((v :: vs).map (fun w => w.flatMap σ))
      rw [List.flatMap_append, List.flatMap_append, ih]

theorem sigmaRev_fixed_of_not_to {repls : List Replacement} {y : Nat}
    (h : ∀ r ∈ repls, r.To ≠ [y]) : sigmaRev repls y = [y] := by
  unfold sigmaRev
  cases hf : repls.find? (fun r => decide (r.To = [y])) with
  | none => rfl
  | some r2 =>
    have hp := List.find?_some hf
    simp only [decide_eq_true_eq] at hp
    exact absurd hp (h r2 (List.mem_of_find?_eq_some hf))

theorem reverseReplacementsContent_eq_flatMap :
    ∀ (repls : List Replacement),
      (∀ r ∈ repls, ∃ x, r.To = [x] ∧ ∀ r2 ∈ repls, x ∉ r2.From) →
      ∀ s : Str, reverseReplacementsContent repls s = s.flatMap (sigmaRev repls) := by
  intro repls
  induction repls with
  | nil =>
    intro _ s
    exact (flatMap_fixed fun b _ => rfl).symm
  | cons r L2 ih =>
    intro h s
    obtain ⟨x, hx, hxf⟩ := h r (List.mem_cons_self r L2)
    have hL2 : ∀ r2 ∈ L2, ∃ x2, r2.To = [x2] ∧ ∀ r3 ∈ L2, x2 ∉ r3.From := by
      intro r2 hr2
      obtain ⟨x2, hx2, hx2f⟩ := h r2 (List.mem_cons_of_mem r hr2)
      exact ⟨x2, hx2, fun r3 hr3 => hx2f r3 (List.mem_cons_of_mem r hr3)⟩
    show reverseReplacementsContent L2 (stringsReplaceAll s r.To r.From)
      = s.flatMap (sigmaRev (r :: L2))
    rw [hx, stringsReplaceAll_single, ih hL2, List.flatMap_assoc]
    refine flatMap_congr ?_
    intro b _
    by_cases hb : b = x
    · rw [if_pos hb, hb]
      have h1 : r.From.flatMap (sigmaRev L2) = r.From := by
        refine flatMap_fixed ?_
        intro y hy
        refine sigmaRev_fixed_of_not_to ?_
        intro r2 hr2 hto
        obtain ⟨x2, hx2, hx2f⟩ := h r2 (List.mem_cons_of_mem r hr2)
        rw [hx2] at hto
        have hxy : x2 = y := by simpa using hto
        rw [hxy] at hx2f
        exact hx2f r (List.mem_cons_self r L2) hy
      have h2 : sigmaRev (r :: L2) x = r.From := by
        unfold sigmaRev
        rw [List.find?_cons_of_pos _ (by rw [hx]; simp)]
      rw [h1, h2]
    · rw [if_neg hb]
      have h2 : sigmaRev (r :: L2) b = sigmaRev L2 b := by
        unfold sigmaRev
        rw [List.find?_cons_of_neg _ (by rw [hx]; simp; exact fun hh => hb hh.symm)]
      rw [h2]
      simp

theorem flatMap_sigma_replaceAll (σ : Nat → Str) (f : Str) (x : Nat)
    (hf : f ≠ []) (hσx : σ x = f) (hσf : f.flatMap σ = f) (s : Str) :
    (stringsReplaceAll s f [x]).flatMap σ = s.flatMap σ := by
  rw [stringsReplaceAll_eq_joinWith hf, flatMap_joinWith]
  have h1 : ([x] : Str).flatMap σ = f := by simp [hσx]
  rw [h1]
  conv_rhs => rw [← joinWith_greedySplit hf s]
  rw [flatMap_joinWith, hσf]

theorem flatMap_sigma_applyFold (L0 : List Replacement)
    (h1 : ∀ r ∈ L0, r.From ≠ [])
    (h2 : ∀ r ∈ L0, ∃ x : Nat, r.To = [x] ∧ ∀ r2 ∈ L0, x ∉ r2.From)
    (h3 : ∀ r1 ∈ L0, ∀ r2 ∈ L0, r1.To = r2.To → r1.From = r2.From) :
    ∀ (L : List Replacement), (∀ r ∈ L, r ∈ L0) → ∀ s : Str,
      (applyReplacementsContent L s).flatMap (sigmaRev L0) = s.flatMap (sigmaRev L0) := by
  intro L
  induction L with
  | nil => intro _ s; rfl
  | cons r L2 ih =>
    intro hsub s
    have hr0 : r ∈ L0 := hsub r (List.mem_cons_self r L2)
    obtain ⟨x, hx, hxf⟩ := h2 r hr0
    show (applyReplacementsContent L2 (stringsReplaceAll s r.From r.To)).flatMap (sigmaRev L0)
      = s.flatMap (sigmaRev L0)
    rw [ih (fun r2 hr2 => hsub r2 (List.mem_cons_of_mem r hr2)), hx]
    refine flatMap_sigma_replaceAll (sigmaRev L0) r.From x (h1 r hr0) ?_ ?_ s
    · unfold sigmaRev
      cases hfd : L0.find? (fun r2 => decide (r2.To = [x])) with
      | none =>
        exfalso
        have hex : ∃ r2 ∈ L0, decide (r2.To = [x]) = true := ⟨r, hr0, by rw [hx]; simp⟩
        rw [← List.find?_isSome] at hex
        rw [hfd] at hex
        simp at hex
      | some r2 =>
        have hr2 : r2 ∈ L0 := List.mem_of_find?_eq_some hfd
        have hto : r2.To = [x] := by
          have hp := List.find?_some hfd
          simpa only [decide_eq_true_eq] using hp
        show r2.From = r.From
        exact h3 r2 hr2 r hr0 (by rw [hto, hx])
    · refine flatMap_fixed ?_
      intro y hy
      refine sigmaRev_fixed_of_not_to ?_
      intro r2 hr2 hto
      obtain ⟨x2, hx2, hx2f⟩ := h2 r2 hr2
      rw [hx2] at hto
      have hxy : x2 = y := by simpa using hto
      rw [hxy] at hx2f
      exact hx2f r hr0 hy

theorem flatMap_sigma_fresh (L0 : List Replacement) (c : Str)
    (h : ∀ r ∈ L0, ∃ x, r.To = [x] ∧ x ∉ c) :
    c.flatMap (sigmaRev L0) = c := by
  refine flatMap_fixed ?_
  intro b hb
  refine sigmaRev_fixed_of_not_to ?_
  intro r2 hr2 hto
  obtain ⟨x2, hx2, hx2c⟩ := h r2 hr2
  rw [hx2] at hto
  have hxb : x2 = b := by simpa using hto
  rw [hxb] at hx2c
  exact hx2c hb

theorem roundTrip_markers (repls : List Replacement) (content : Str)
    (h : NonOverlapping repls content) :
    reverseReplacementsContent repls (applyReplacementsContent repls content) = content := by
  obtain ⟨h1, h2, h3⟩ := h
  rw [reverseReplacementsContent_eq_flatMap repls
    (fun r hr => ⟨(h2 r hr).choose, (h2 r hr).choose_spec.1, (h2 r hr).choose_spec.2.2⟩)]
  rw [flatMap_sigma_applyFold repls h1
    (fun r hr => ⟨(h2 r hr).choose, (h2 r hr).choose_spec.1, (h2 r hr).choose_spec.2.2⟩)
    h3 repls (fun r hr => hr) content]
  exact flatMap_sigma_fresh repls content
    (fun r hr => ⟨(h2 r hr).choose, (h2 r hr).choose_spec.1, (h2 r hr).choose_spec.2.1⟩)

theorem occursAt_append_left {A B pat : Str} {p : Nat}
    (h : occursAt (A ++ B) pat p) (hb : p + pat.length ≤ A.length) : occursAt A pat p := by
  unfold occursAt at h ⊢
  rw [List.drop_append_of_le_length (by omega)] at h
  rw [List.take_append_of_le_length (by simp [List.length_drop]; omega)] at h
  exact h

theorem no_span_occursAt {t u v : Str} {p : Nat} (hub : Unbordered t)
    (hlt : p < u.length) (hgt : u.length < p + t.length)
    (hocc : occursAt (u ++ t ++ v) t p) : False := by
  unfold occursAt at hocc
  rw [List.append_assoc, List.drop_append_of_le_length (by omega),
    List.take_append_eq_append_take] at hocc
  have hlen : (u.drop p).length = u.length - p := List.length_drop p u
  rw [List.take_of_length_le (by omega), List.take_append_of_le_length (by omega), hlen]
    at hocc
  have hborder : t.drop (u.length - p) = t.take (t.length - (u.length - p)) := by
    conv_lhs => rw [← hocc]
    rw [List.drop_append_eq_append_drop, List.drop_eq_nil_of_le (le_of_eq hlen),
      List.nil_append, hlen, Nat.sub_self, List.drop_zero]
  have hb := hub (t.length - (u.length - p)) (by omega) (by omega)
  apply hb
  rw [show t.length - (t.length - (u.length - p)) = u.length - p from by omega]
  exact hborder.symm

theorem findFrom_gap_head {t u : Str} (v : Str) (ht : t ≠ []) (hub : Unbordered t)
    (hu : ¬ occursIn u t) : findFrom (u ++ t ++ v) t 0 = some u.length := by
  have htl : 0 < t.length := List.length_pos.mpr ht
  rw [findFrom_eq_some_iff]
  refine ⟨Nat.zero_le _, ?_, ?_, ?_⟩
  · simp [List.length_append]
  · unfold occursAt
    rw [List.append_assoc, List.drop_left, List.take_left]
  · intro j _ hjlt hocc
    by_cases hcase : j + t.length ≤ u.length
    · exact hu ⟨j, occursAt_append_left (by rwa [List.append_assoc] at hocc) hcase⟩
    · exact no_span_occursAt hub hjlt (by omega) hocc

theorem greedySplit_joinWith {t : Str} (ht : t ≠ []) (hub : Unbordered t) :
    ∀ gaps : List Str, (∀ u ∈ gaps, ¬ occursIn u t) →
      gaps ≠ [] → greedySplit t (joinWith t gaps) = gaps := by
  intro gaps
  induction gaps with
  | nil => intro _ h; exact absurd rfl h
  | cons u rest ih =>
    intro hno _
    cases rest with
    | nil =>
      show greedySplit t u = [u]
      exact greedySplit_of_not_occurs ht (hno u (List.mem_singleton.mpr rfl))
    | cons v vs =>
      rw [joinWith_cons (List.cons_ne_nil v vs), greedySplit]
      simp only [ht, if_false]
      rw [findFrom_gap_head (joinWith t (v :: vs)) ht hub (hno u (List.mem_cons_self u _))]
      dsimp only
      rw [dif_pos ⟨by simp [List.length_append], List.length_pos.mpr ht⟩]
      have htake : (u ++ t ++ joinWith t (v :: vs)).take u.length = u := by
        rw [List.append_assoc]
        exact List.take_left u (t ++ joinWith t (v :: vs))
      have hdrop : (u ++ t ++ joinWith t (v :: vs)).drop (u.length + t.length)
          = joinWith t (v :: vs) := by
        rw [List.append_assoc, List.drop_append_eq_append_drop,
          List.drop_eq_nil_of_le (by omega), List.nil_append,
          Nat.add_sub_cancel_left u.length t.length, List.drop_left]
      rw [htake, hdrop,
        ih (fun w hw => hno w (List.mem_cons_of_mem u hw)) (List.cons_ne_nil v vs)]

theorem not_occursIn_greedySplit {f : Str} (hf : f ≠ []) :
    ∀ s : Str, ∀ u ∈ greedySplit f s, ¬ occursIn u f := by
  suffices H : ∀ n s, (s : Str).length ≤ n → ∀ u ∈ greedySplit f s, ¬ occursIn u f from
    fun s => H s.length s le_rfl
  intro n
  induction n with
  | zero =>
    intro s hn u hu
    have hs : s = [] := List.eq_nil_of_length_eq_zero (by omega)
    subst hs
    rw [greedySplit] at hu
    simp only [hf, if_false] at hu
    rw [findFrom_nil hf] at hu
    rcases List.mem_singleton.mp hu with rfl
    rintro ⟨i, hi⟩
    have hlen := occursAt_length_le hf hi
    simp only [List.length_nil] at hlen
    exact hf (List.eq_nil_of_length_eq_zero (by omega))
  | succ n ih =>
    intro s hn u hu
    rw [greedySplit] at hu
    simp only [hf, if_false] at hu
    cases hfind : findFrom s f 0 with
    | none =>
      rw [hfind] at hu
      rcases List.mem_singleton.mp hu with rfl
      exact not_occursIn_of_findFrom_none hf hfind
    | some i =>
      obtain ⟨_, hb, hocc⟩ := findFrom_some hfind
      rw [hfind] at hu
      dsimp only at hu
      rw [dif_pos ⟨hb, List.length_pos.mpr hf⟩] at hu
      rcases List.mem_cons.mp hu with rfl | hu2
      · rintro ⟨j, hj⟩
        have hjb := occursAt_length_le hf hj
        simp only [List.length_take] at hjb
        have hmin : min i s.length ≤ i := Nat.min_le_left i s.length
        have hjs : occursAt s f j := occursAt_of_prefix hf hj (List.take_prefix i s)
        have hflen : 0 < f.length := List.length_pos.mpr hf
        exact findFrom_least hfind j (by omega) (by omega) hjs
      · exact ih (s.drop (i + f.length))
          (by simp only [List.length_drop]; have := List.length_pos.mpr hf; omega) u hu2

theorem mem_greedySplit_infixOf {f : Str} (hf : f ≠ []) :
    ∀ s : Str, ∀ u ∈ greedySplit f s, u <:+: s := by
  suffices H : ∀ n s, (s : Str).length ≤ n → ∀ u ∈ greedySplit f s, u <:+: s from
    fun s => H s.length s le_rfl
  intro n
  induction n with
  | zero =>
    intro s hn u hu
    have hs : s = [] := List.eq_nil_of_length_eq_zero (by omega)
    subst hs
    rw [greedySplit] at hu
    simp only [hf, if_false] at hu
    rw [findFrom_nil hf] at hu
    rcases List.mem_singleton.mp hu with rfl
    exact List.infix_refl []
  | succ n ih =>
    intro s hn u hu
    rw [greedySplit] at hu
    simp only [hf, if_false] at hu
    cases hfind : findFrom s f 0 with
    | none =>
      rw [hfind] at hu
      rcases List.mem_singleton.mp hu with rfl
      exact List.infix_refl _
    | some i =>
      obtain ⟨_, hb, hocc⟩ := findFrom_some hfind
      rw [hfind] at hu
      dsimp only at hu
      rw [dif_pos ⟨hb, List.length_pos.mpr hf⟩] at hu
      rcases List.mem_cons.mp hu with rfl | hu2
      · exact (List.take_prefix i s).isInfix
      · have hrec := ih (s.drop (i + f.length))
          (by simp only [List.length_drop]; have := List.length_pos.mpr hf; omega) u hu2
        exact hrec.trans (List.drop_suffix (i + f.length) s).isInfix

theorem occursIn_joinWith_mem {pat x : Str} (hpat : pat ≠ []) (hx : x ≠ [])
    (hdisj : ∀ b ∈ pat, b ∉ x) :
    ∀ gaps : List Str, occursIn (joinWith x gaps) pat → ∃ u ∈ gaps, occursIn u pat := by
  have hpl : 0 < pat.length := List.length_pos.mpr hpat
  have hxl : 0 < x.length := List.length_pos.mpr hx
  intro gaps
  induction gaps with
  | nil =>
    rintro ⟨p, hp⟩
    have hlen := occursAt_length_le hpat hp
    simp only [joinWith, List.length_nil] at hlen
    omega
  | cons u rest ih =>
    cases rest with
    | nil =>
      intro h
      exact ⟨u, List.mem_singleton.mpr rfl, h⟩
    | cons v vs =>
      rintro ⟨p, hp⟩
      rw [joinWith_cons (List.cons_ne_nil v vs)] at hp
      have hlen := occursAt_length_le hpat hp
      by_cases h1 : p + pat.length ≤ u.length
      · refine ⟨u, List.mem_cons_self u _, p, ?_⟩
        exact occursAt_append_left (by rwa [List.append_assoc] at hp) h1
      · by_cases h2 : u.length + x.length ≤ p
        · have hocc2 : occursAt (joinWith x (v :: vs)) pat (p - (u.length + x.length)) := by
            unfold occursAt at hp ⊢
            rw [List.drop_append_eq_append_drop,
              List.drop_eq_nil_of_le (by simp only [List.length_append]; omega),
              List.nil_append,
              show p - (u ++ x).length = p - (u.length + x.length) from by
                simp [List.length_append]] at hp
            exact hp
          obtain ⟨w, hw, hwocc⟩ := ih ⟨_, hocc2⟩
          exact ⟨w, List.mem_cons_of_mem u hw, hwocc⟩
        · exfalso
          have hsplit := occursAt_split hp
          have hAlen : ((u ++ x ++ joinWith x (v :: vs)).take p).length = p := by
            simp only [List.length_take, List.length_append]
            omega
          have hq1 : p ≤ max p u.length := Nat.le_max_left _ _
          have hq2 : u.length ≤ max p u.length := Nat.le_max_right _ _
          have hq3 : max p u.length < p + pat.length := by omega
          have hq4 : max p u.length < u.length + x.length := by omega
          have hd1 : (u ++ x ++ joinWith x (v :: vs)).drop (max p u.length)
              = pat.drop (max p u.length - p)
                ++ (u ++ x ++ joinWith x (v :: vs)).drop (p + pat.length) := by
            conv_lhs => rw [hsplit, List.append_assoc, List.drop_append_eq_append_drop]
            rw [List.drop_eq_nil_of_le (by rw [hAlen]; exact hq1), List.nil_append, hAlen,
              List.drop_append_of_le_length (by omega)]
          have hd2 : (u ++ x ++ joinWith x (v :: vs)).drop (max p u.length)
              = x.drop (max p u.length - u.length) ++ joinWith x (v :: vs) := by
            rw [List.append_assoc, List.drop_append_eq_append_drop,
              List.drop_eq_nil_of_le (by omega), List.nil_append,
              List.drop_append_of_le_length (by omega)]
          have hne1 : pat.drop (max p u.length - p) ≠ [] :=
            List.ne_nil_of_length_pos (by simp only [List.length_drop]; omega)
          have hne2 : x.drop (max p u.length - u.length) ≠ [] :=
            List.ne_nil_of_length_pos (by simp only [List.length_drop]; omega)
          obtain ⟨b, l1, hb1⟩ := List.exists_cons_of_ne_nil hne1
          have e1 := hd1.symm.trans hd2
          rw [hb1, List.cons_append] at e1
          have e2 := congrArg List.head? e1
          rw [List.head?_append_of_ne_nil _ hne2] at e2
          simp only [List.head?_cons] at e2
          have hbx : b ∈ x :=
            List.mem_of_mem_drop (List.mem_of_mem_head? e2.symm)
          have hbp : b ∈ pat :=
            List.mem_of_mem_drop (by rw [hb1]; exact List.mem_cons_self b l1)
          exact hdisj b hbp hbx

theorem not_occursIn_replaced {f t c : Str} (hf : f ≠ []) (ht : t ≠ [])
    (hdisj : ∀ b ∈ f, b ∉ t) : ¬ occursIn (stringsReplaceAll c f t) f := by
  rw [stringsReplaceAll_eq_joinWith hf]
  intro hocc
  obtain ⟨u, hu, huocc⟩ := occursIn_joinWith_mem hf ht hdisj (greedySplit f c) hocc
  exact not_occursIn_greedySplit hf c u hu huocc

theorem applyFold_const {f t : Str} (hf : f ≠ []) (c1 : Str) (hno : ¬ occursIn c1 f) :
    ∀ L : List Replacement, (∀ r ∈ L, r.From = f ∧ r.To = t) →
      applyReplacementsContent L c1 = c1 := by
  intro L
  induction L with
  | nil => intro _; rfl
  | cons r L2 ih =>
    intro hall
    obtain ⟨hrf, hrt⟩ := hall r (List.mem_cons_self r L2)
    show applyReplacementsContent L2 (stringsReplaceAll c1 r.From r.To) = c1
    rw [hrf, stringsReplaceAll_of_not_occurs hf hno r.To]
    exact ih fun r2 hr2 => hall r2 (List.mem_cons_of_mem r hr2)

theorem revFold_const {f t : Str} (ht : t ≠ []) (c : Str) (hno : ¬ occursIn c t) :
    ∀ L : List Replacement, (∀ r ∈ L, r.From = f ∧ r.To = t) →
      reverseReplacementsContent L c = c := by
  intro L
  induction L with
  | nil => intro _; rfl
  | cons r L2 ih =>
    intro hall
    obtain ⟨hrf, hrt⟩ := hall r (List.mem_cons_self r L2)
    show reverseReplacementsContent L2 (stringsReplaceAll c r.To r.From) = c
    rw [hrt, stringsReplaceAll_of_not_occurs ht hno r.From]
    exact ih fun r2 hr2 => hall r2 (List.mem_cons_of_mem r hr2)

theorem roundTrip_single_rule (f t c : Str) (L : List Replacement)
    (hf : f ≠ []) (ht : t ≠ []) (hub : Unbordered t)
    (hfresh : ¬ occursIn c t) (hdisj : ∀ b ∈ f, b ∉ t)
    (hall : ∀ r ∈ L, r.From = f ∧ r.To = t) :
    reverseReplacementsContent L (applyReplacementsContent L c) = c := by
  cases L with
  | nil => rfl
  | cons r L2 =>
    obtain ⟨hrf, hrt⟩ := hall r (List.mem_cons_self r L2)
    have hallL2 : ∀ r2 ∈ L2, r2.From = f ∧ r2.To = t :=
      fun r2 hr2 => hall r2 (List.mem_cons_of_mem r hr2)
    have hfwd : applyReplacementsContent (r :: L2) c = stringsReplaceAll c f t := by
      show applyReplacementsContent L2 (stringsReplaceAll c r.From r.To) = _
      rw [hrf, hrt]
      exact applyFold_const hf _ (not_occursIn_replaced hf ht hdisj) L2 hallL2
    rw [hfwd]
    show reverseReplacementsContent L2
      (stringsReplaceAll (stringsReplaceAll c f t) r.To r.From) = c
    have hstep : stringsReplaceAll (stringsReplaceAll c f t) t f = c := by
      rw [stringsReplaceAll_eq_joinWith hf c t, stringsReplaceAll_eq_joinWith ht,
        greedySplit_joinWith ht hub (greedySplit f c)
          (fun u hu hocc =>
            hfresh (occursIn_of_infixOf ht hocc (mem_greedySplit_infixOf hf c u hu)))
          (greedySplit_ne_nil f c)]
      exact joinWith_greedySplit hf c
    rw [hrf, hrt, hstep]
    exact revFold_const ht c hfresh L2 hallL2

/-- C5, counterexample.  The single rule `"x" → "aa"` on content
`"ax"` is non-overlapping under the natural reading — one rule, one
occurrence, and its `to` does not occur anywhere in the content — yet
the round trip fails: applying gives `"a" ++ "aa" = "aaa"`, and the
revert scan for `"aa"` then matches at offset 0, where the inserted
copy has merged with the neighbouring `'a'` of the original content
(`"aa"` is bordered), producing `"xa" ≠ "ax"`. -/
theorem C5_round_trip_fails_cex :
    ¬ occursIn [97, 120] [97, 97] ∧
    reverseReplacementsContent [⟨[120], [97, 97], 0, 0, [], [], 0⟩]
        (applyReplacementsContent [⟨[120], [97, 97], 0, 0, [], [], 0⟩] [97, 120])
      ≠ [97, 120] := by
  constructor
  · apply not_occursIn_of_findFrom_none (by decide)
    simp [findFrom, occursAt]
  · have h1 : applyReplacementsContent [⟨[120], [97, 97], 0, 0, [], [], 0⟩] [97, 120]
        = [97, 97, 97] := by
      show stringsReplaceAll [97, 120] [120] [97, 97] = _
      rw [stringsReplaceAll_single]
      decide
    rw [h1]
    have h2 : reverseReplacementsContent [⟨[120], [97, 97], 0, 0, [], [], 0⟩] [97, 97, 97]
        = [120, 97] := by
      show stringsReplaceAll [97, 97, 97] [97, 97] [120] = _
      rw [stringsReplaceAll, if_neg (by decide), replaceAllLoop]
      have hff : findFrom [97, 97, 97] [97, 97] 0 = some 0 := by
        simp [findFrom, occursAt]
      rw [hff]
      dsimp only
      rw [dif_pos (by norm_num)]
      rw [replaceAllLoop]
      norm_num
      have hff2 : findFrom [97, 97, 97] [97, 97] 2 = none := by
        simp [findFrom]
      rw [hff2]
    rw [h2]
    decide

/-- C5, amended: the round trip — apply the recorded occurrences
`from → to` in order, then revert `to → from` in the same order —
reproduces the original content for every occurrence list that is
non-overlapping in either of two precise senses, while the
counterexample shows some freshness condition beyond "`to` absent
from the content" is necessary.  Conjunct A (marker form,
`NonOverlapping`): every occurrence rewrites a non-empty `from` to a
single fresh marker byte (absent from the content and from every
occurrence's `from`), occurrences sharing a marker agreeing on their
`from`.  Conjunct B (ordinary single-rule form, `foo → bar` style):
all occurrences record one rule `f → t` with `f` and `t` non-empty,
`t` unbordered, `t` not occurring in the content, and `f` and `t`
sharing no byte; repeated rows — one per occurrence, as the log
writes them — are covered, the extra applications and reverts being
no-ops. -/
theorem C5_apply_revert_round_trip :
    (∀ (repls : List Replacement) (content : Str), NonOverlapping repls content →
      reverseReplacementsContent repls (applyReplacementsContent repls content) = content) ∧
    (∀ (f t content : Str) (L : List Replacement),
      f ≠ [] → t ≠ [] → Unbordered t → ¬ occursIn content t → (∀ b ∈ f, b ∉ t) →
      (∀ r ∈ L, r.From = f ∧ r.To = t) →
      reverseReplacementsContent L (applyReplacementsContent L content) = content) :=
  ⟨roundTrip_markers,
   fun f t content L hf ht hub hfresh hdisj hall =>
     roundTrip_single_rule f t content L hf ht hub hfresh hdisj hall⟩

theorem C5_apply_revert_round_trip_witness :
    (NonOverlapping [⟨[97, 98], [120], 0, 0, [], [], 0⟩, ⟨[99], [121], 0, 0, [], [], 0⟩]
        [97, 98, 99, 97, 98] ∧
      reverseReplacementsContent
          [⟨[97, 98], [120], 0, 0, [], [], 0⟩, ⟨[99], [121], 0, 0, [], [], 0⟩]
          (applyReplacementsContent
            [⟨[97, 98], [120], 0, 0, [], [], 0⟩, ⟨[99], [121], 0, 0, [], [], 0⟩]
            [97, 98, 99, 97, 98])
        = [97, 98, 99, 97, 98]) ∧
    (Unbordered [98, 97, 114] ∧ ¬ occursIn [102, 111, 111, 32, 102, 111, 111] [98, 97, 114] ∧
      reverseReplacementsContent
          [⟨[102, 111, 111], [98, 97, 114], 0, 0, [], [], 0⟩,
           ⟨[102, 111, 111], [98, 97, 114], 0, 0, [], [], 0⟩]
          (applyReplacementsContent
            [⟨[102, 111, 111], [98, 97, 114], 0, 0, [], [], 0⟩,
             ⟨[102, 111, 111], [98, 97, 114], 0, 0, [], [], 0⟩]
            [102, 111, 111, 32, 102, 111, 111])
        = [102, 111, 111, 32, 102, 111, 111]) := by
  have hNO : NonOverlapping
      [⟨[97, 98], [120], 0, 0, [], [], 0⟩, ⟨[99], [121], 0, 0, [], [], 0⟩]
      [97, 98, 99, 97, 98] := by
    refine ⟨?_, ?_, ?_⟩
    · intro r hr
      rcases List.mem_cons.mp hr with rfl | hr2
      · decide
      · rcases List.mem_singleton.mp hr2 with rfl
        decide
    · intro r hr
      rcases List.mem_cons.mp hr with rfl | hr2
      · refine ⟨120, rfl, by decide, ?_⟩
        intro r2 hr2
        rcases List.mem_cons.mp hr2 with rfl | hr3
        · decide
        · rcases List.mem_singleton.mp hr3 with rfl
          decide
      · rcases List.mem_singleton.mp hr2 with rfl
        refine ⟨121, rfl, by decide, ?_⟩
        intro r2 hr2
        rcases List.mem_cons.mp hr2 with rfl | hr3
        · decide
        · rcases List.mem_singleton.mp hr3 with rfl
          decide
    · intro r1 hr1 r2 hr2 hto
      rcases List.mem_cons.mp hr1 with rfl | hr1b
      · rcases List.mem_cons.mp hr2 with rfl | hr2b
        · rfl
        · rcases List.mem_singleton.mp hr2b with rfl
          simp at hto
      · rcases List.mem_singleton.mp hr1b with rfl
        rcases List.mem_cons.mp hr2 with rfl | hr2b
        · simp at hto
        · rcases List.mem_singleton.mp hr2b with rfl
          rfl
  have hfreshB : ¬ occursIn [102, 111, 111, 32, 102, 111, 111] [98, 97, 114] := by
    apply not_occursIn_of_findFrom_none (by decide)
    simp [findFrom, occursAt]
  refine ⟨⟨hNO, C5_apply_revert_round_trip.1
      [⟨[97, 98], [120], 0, 0, [], [], 0⟩, ⟨[99], [121], 0, 0, [], [], 0⟩]
      [97, 98, 99, 97, 98] hNO⟩,
    by decide, hfreshB,
    C5_apply_revert_round_trip.2 [102, 111, 111] [98, 97, 114]
      [102, 111, 111, 32, 102, 111, 111]
      [⟨[102, 111, 111], [98, 97, 114], 0, 0, [], [], 0⟩,
       ⟨[102, 111, 111], [98, 97, 114], 0, 0, [], [], 0⟩]
      (by decide) (by decide) (by decide) hfreshB (by decide) ?_⟩
  intro r hr
  rcases List.mem_cons.mp hr with rfl | hr2
  · exact ⟨rfl, rfl⟩
  · rcases List.mem_singleton.mp hr2 with rfl
    exact ⟨rfl, rfl⟩

end Remap
